import Mathlib

/-!
Shallow embedding of the rope library (src/rope.rs) together with the
string primitives it uses (src/str.rs), and proofs of the spec's claims
about it.

Modelling conventions:
* a Rust string (`str`) is its UTF-8 byte sequence, `List Nat`;
* a code point (`char`) is a `Nat`;
* machine integers are `Nat` (or `Int` where the source uses `int`);
* fallible source operations — `fail`, failed `assert!`, out-of-bounds
  vector indexing — return `Option`, with `none` for the failure;
* loops of the source are recursive functions; loops whose termination
  is not structural take an explicit fuel argument, and running out of
  fuel is modelled as a failure (`none`);
* the mutable records of the iterators become explicit state passing.
-/

namespace str

/-- From src/str.rs `utf8_char_width`: the byte width of a UTF-8 sequence
given its first byte. -/
def utf8_char_width (b : Nat) : Nat :=
  if b < 128 then 1
  else if b < 192 then 0
  else if b < 224 then 2
  else if b < 240 then 3
  else if b < 248 then 4
  else if b < 252 then 5
  else 6

/-- From src/str.rs: the tag of a UTF-8 continuation byte. -/
def tag_cont_u8 : Nat := 128

/-- The continuation-byte loop of src/str.rs `char_range_at`: reads
`count` bytes starting at index `i`, each required to be a continuation
byte, accumulating the value. `none` models a failed assertion or an
out-of-bounds read. -/
def decode_cont (s : List Nat) (i : Nat) (count : Nat) (val : Nat) :
    Option Nat :=
  match count with
  | 0 => some val
  | c + 1 =>
    match s.get? i with
    | none => none
    | some byte =>
      if Nat.land byte 192 = tag_cont_u8 then
        decode_cont s (i + 1) c (val * 64 + Nat.land byte 63)
      else none

/-- From src/str.rs `char_range_at`: decode the code point at byte index
`i` and return it with the index of the next code point. -/
def char_range_at (s : List Nat) (i : Nat) : Option (Nat × Nat) :=
  match s.get? i with
  | none => none
  | some b0 =>
    let w := utf8_char_width b0
    if w = 0 then none
    else if w = 1 then some (b0, i + 1)
    else
      match decode_cont s (i + 1) (w - 1) 0 with
      | none => none
      | some val =>
        some (val + b0 * 2 ^ (w + 1) % 256 * 2 ^ ((w - 1) * 6 - w - 1),
              i + w)

/-- From src/str.rs `is_char_boundary`. `none` models the out-of-bounds
`s[index]` failure. -/
def is_char_boundary (s : List Nat) (index : Nat) : Option Bool :=
  if index = s.length then some true
  else
    match s.get? index with
    | none => none
    | some b => some (decide (b < 128) || decide (b ≥ 192))

/-- From src/str.rs `len`: the byte length of a string. -/
def len (s : List Nat) : Nat := s.length

/-- The loop of src/str.rs `count_chars`: count code points from byte
index `i` up to byte index `ed`. `fuel` makes the recursion structural;
every decoding step advances `i`, so the `ed - i` supplied by
`count_chars` never runs out. -/
def count_chars_loop (s : List Nat) (fuel i ed acc : Nat) : Option Nat :=
  if i < ed then
    match fuel with
    | 0 => none
    | f + 1 =>
      match char_range_at s i with
      | none => none
      | some cn => count_chars_loop s f cn.2 ed (acc + 1)
  else some acc

/-- From src/str.rs `count_chars`: the number of code points of `s`
between byte indices `start` and `ed` (both asserted to be code-point
boundaries). -/
def count_chars (s : List Nat) (start ed : Nat) : Option Nat :=
  match is_char_boundary s start, is_char_boundary s ed with
  | some true, some true => count_chars_loop s (ed - start) start ed 0
  | _, _ => none

/-- The loop of src/str.rs `count_bytes`: advance `cnt` code points from
byte index `ed`, asserting `ed < s.len()` before each step. -/
def count_bytes_loop (s : List Nat) (ed cnt : Nat) : Option Nat :=
  match cnt with
  | 0 => some ed
  | c + 1 =>
    if ed < s.length then
      match char_range_at s ed with
      | none => none
      | some cn => count_bytes_loop s cn.2 c
    else none

/-- From src/str.rs `count_bytes`: the number of bytes taken by the first
`n` code points of `s` starting at byte index `start`. -/
def count_bytes (s : List Nat) (start n : Nat) : Option Nat :=
  match is_char_boundary s start with
  | some true =>
    match count_bytes_loop s start n with
    | some ed => some (ed - start)
    | none => none
  | _ => none

/-- The loop of the derived decoder `decode_str`; `fuel` makes the
recursion structural, and every decoding step consumes at least one
byte, so the `s.length` supplied by `decode_str` never runs out. -/
def decode_go (fuel : Nat) (s : List Nat) : Option (List Nat) :=
  if s = [] then some []
  else
    match fuel with
    | 0 => none
    | f + 1 =>
      match char_range_at s 0 with
      | none => none
      | some cn =>
        match decode_go f (s.drop cn.2) with
        | none => none
        | some cs => some (cn.1 :: cs)

/-- Derived decoder (not itself in the source): repeatedly apply the
source's `char_range_at` from the start of `s`, yielding the code-point
sequence of `s`. `some cs` says exactly that `s` is valid UTF-8 in the
eyes of the source's own decoder, with code points `cs`. -/
def decode_str (s : List Nat) : Option (List Nat) :=
  decode_go s.length s

end str

/-- From src/rope.rs `node::leaf`: a slice descriptor over a shared
immutable string buffer. -/
structure Leaf where
  byte_offset : Nat
  byte_len : Nat
  char_len : Nat
  content : List Nat
deriving DecidableEq

/-- From src/rope.rs `node::node`: a leaf or the concatenation of two
subtrees with cached char length, byte length and height. -/
inductive Node where
  | leaf (l : Leaf)
  | concat (left right : Node) (char_len byte_len height : Nat)
deriving DecidableEq

/-- From src/rope.rs `node::root` (the type `rope`): an empty rope or a
non-empty one with its root node. -/
inductive Root where
  | empty
  | content (n : Node)
deriving DecidableEq

namespace node

/-- From src/rope.rs `node::hint_max_leaf_char_len`. -/
def hint_max_leaf_char_len : Nat := 256

/-- From src/rope.rs `node::hint_max_node_height`. -/
def hint_max_node_height : Nat := 16

/-- From src/rope.rs `node::byte_len`. -/
def byte_len : Node → Nat
  | .leaf y => y.byte_len
  | .concat _ _ _ b _ => b

/-- From src/rope.rs `node::char_len`. -/
def char_len : Node → Nat
  | .leaf y => y.char_len
  | .concat _ _ c _ _ => c

/-- From src/rope.rs `node::height`. -/
def height : Node → Nat
  | .leaf _ => 0
  | .concat _ _ _ _ h => h

/-- From src/rope.rs `node::concat2`. -/
def concat2 (left right : Node) : Node :=
  .concat left right (char_len left + char_len right)
    (byte_len left + byte_len right)
    (Nat.max (height left) (height right) + 1)

/-- Model of `uint::div_ceil` from the old standard library. -/
def div_ceil (x y : Nat) : Nat := x / y + if x % y = 0 then 0 else 1

/-- Checked vector read: `v[i]` of the source, `none` on out-of-bounds. -/
def vget {α : Type} (v : List α) (i : Nat) : Option α := v.get? i

/-- Checked vector write: `v[i] = x` of the source, `none` on
out-of-bounds. -/
def vset {α : Type} (v : List α) (i : Nat) (x : α) : Option (List α) :=
  if i < v.length then some (v.set i x) else none

/-- The chunking loop of src/rope.rs `node::of_substr_unsafer`: writes
one leaf per chunk into `nodes`, the first chunk `first_leaf_char_len`
chars long and every later one `hint_max_leaf_char_len`. `fuel` makes
the recursion structural; `i` grows by one per iteration, so the
`leaves` supplied by the caller never runs out. -/
def of_substr_chunks (s : List Nat) (fuel first_leaf_char_len leaves : Nat)
    (i offset : Nat) (nodes : List Node) : Option (List Node) :=
  if i < leaves then
    match fuel with
    | 0 => none
    | f + 1 =>
      let chunk_char_len := if i = 0 then first_leaf_char_len
                            else hint_max_leaf_char_len
      match str.count_bytes s offset chunk_char_len with
      | none => none
      | some chunk_byte_len =>
        match vset nodes i
            (.leaf ⟨offset, chunk_byte_len, chunk_char_len, s⟩) with
        | none => none
        | some nodes' =>
          of_substr_chunks s f first_leaf_char_len leaves (i + 1)
            (offset + chunk_byte_len) nodes'
  else some nodes

/-- The inner pairing loop of the leaf-collapsing `while` in
src/rope.rs `node::of_substr_unsafer`: concatenates nodes 0 with 1,
2 with 3, and so on, writing the results at the front of the vector;
returns the vector and the final value of `i`. `fuel` makes the
recursion structural; `i` grows by two per iteration, so the `len`
supplied by the caller never runs out. -/
def collapse_pairs (fuel : Nat) (nodes : List Node) (i len : Nat) :
    Option (List Node × Nat) :=
  if i < len - 1 then
    match fuel with
    | 0 => none
    | f + 1 =>
      match vget nodes i, vget nodes (i + 1) with
      | some a, some b =>
        match vset nodes (i / 2) (concat2 a b) with
        | some nodes' => collapse_pairs f nodes' (i + 2) len
        | none => none
      | _, _ => none
  else some (nodes, i)

/-- One round of the collapsing `while` of
src/rope.rs `node::of_substr_unsafer`: the pairing loop, then the
carry of a last node in even position. -/
def collapse_round (nodes : List Node) (len : Nat) : Option (List Node) :=
  match collapse_pairs len nodes 0 len with
  | none => none
  | some (nodes', i) =>
    if i = len - 1 then
      match vget nodes' i with
      | none => none
      | some x => vset nodes' (i / 2) x
    else some nodes'

/-- The outer collapsing `while` of src/rope.rs
`node::of_substr_unsafer`: rounds of pairing until one node remains,
then `nodes[0]`. `fuel` makes the recursion structural; `len` at least
halves per round, so the `leaves` supplied by the caller never runs
out. -/
def collapse_go (fuel : Nat) (nodes : List Node) (leaves : Nat) :
    Option Node :=
  if leaves > 1 then
    match fuel with
    | 0 => none
    | f + 1 =>
      match collapse_round nodes leaves with
      | none => none
      | some nodes' => collapse_go f nodes' (div_ceil leaves 2)
  else vget nodes 0

/-- The collapsing `while` of src/rope.rs `node::of_substr_unsafer`
with its sufficient fuel. -/
def collapse_loop (nodes : List Node) (leaves : Nat) : Option Node :=
  collapse_go leaves nodes leaves

/-- From src/rope.rs `node::of_substr_unsafer`: adopt the byte range
`[byte_start, byte_start+byte_len)` of `s`, trusted to hold `char_len`
code points, splitting it into leaves of at most
`hint_max_leaf_char_len` chars and collapsing them pairwise. -/
def of_substr_unsafer (s : List Nat) (byte_start byte_len char_len : Nat) :
    Option Node :=
  if byte_start + byte_len ≤ str.len s then
    let candidate : Node := .leaf ⟨byte_start, byte_len, char_len, s⟩
    if char_len ≤ hint_max_leaf_char_len then some candidate
    else
      let leaves := div_ceil char_len hint_max_leaf_char_len
      let nodes := List.replicate leaves candidate
      let first_leaf_char_len :=
        if char_len % hint_max_leaf_char_len = 0 then hint_max_leaf_char_len
        else char_len % hint_max_leaf_char_len
      match of_substr_chunks s leaves first_leaf_char_len leaves 0
          byte_start nodes with
      | none => none
      | some nodes' => collapse_loop nodes' leaves
  else none

/-- From src/rope.rs `node::of_substr`: the checked entry point, which
computes the char count itself (note: it passes `byte_len` where
`str::count_chars` expects an end position). -/
def of_substr (s : List Nat) (byte_start byte_len : Nat) : Option Node :=
  match str.count_chars s byte_start byte_len with
  | none => none
  | some char_len => of_substr_unsafer s byte_start byte_len char_len

/-- From src/rope.rs `node::of_str`. -/
def of_str (s : List Nat) : Option Node := of_substr s 0 (str.len s)

/-- From src/rope.rs `node::sub_bytes`: the loop becomes recursion, the
two-sided case keeps its two recursive calls. -/
def sub_bytes (nd : Node) (byte_offset byte_len : Nat) : Option Node :=
  if byte_offset = 0 ∧ byte_len = node.byte_len nd then some nd
  else
    match nd with
    | .leaf x =>
      match str.count_chars x.content byte_offset byte_len with
      | none => none
      | some cl =>
        some (.leaf ⟨byte_offset, byte_len, cl, x.content⟩)
    | .concat l r _ _ _ =>
      let left_len := node.byte_len l
      if byte_offset ≤ left_len then
        if byte_offset + byte_len ≤ left_len then
          sub_bytes l byte_offset byte_len
        else
          match sub_bytes l byte_offset left_len,
                sub_bytes r 0 (left_len - byte_offset) with
          | some left_result, some right_result =>
            some (concat2 left_result right_result)
          | _, _ => none
      else sub_bytes r (byte_offset - left_len) byte_len

/-- From src/rope.rs `node::sub_chars`: the loop becomes recursion, the
two-sided case keeps its two recursive calls. -/
def sub_chars (nd : Node) (char_offset char_len : Nat) : Option Node :=
  match nd with
  | .leaf x =>
    if char_offset = 0 ∧ char_len = x.char_len then some nd
    else
      match str.count_bytes x.content 0 char_offset with
      | none => none
      | some byte_offset =>
        match str.count_bytes x.content byte_offset char_len with
        | none => none
        | some byte_len =>
          some (.leaf ⟨byte_offset, byte_len, char_len, x.content⟩)
  | .concat l r ccl _ _ =>
    if char_offset = 0 ∧ char_len = ccl then some nd
    else
      let left_len := node.char_len l
      if char_offset ≤ left_len then
        if char_offset + char_len ≤ left_len then
          sub_chars l char_offset char_len
        else
          match sub_chars l char_offset left_len,
                sub_chars r 0 (left_len - char_offset) with
          | some left_result, some right_result =>
            some (concat2 left_result right_result)
          | _, _ => none
      else sub_chars r (char_offset - left_len) char_len

end node

/-- From src/rope.rs `node::leaf_iterator::t`: the explicit traversal
stack and the stack position (an `int`, `-1` when exhausted). -/
structure LeafIterState where
  stack : List Node
  stackpos : Int
deriving DecidableEq

namespace leaf_iterator

/-- From src/rope.rs `node::leaf_iterator::empty`. -/
def empty : LeafIterState := ⟨[], -1⟩

/-- From src/rope.rs `node::leaf_iterator::start`: a stack of
`height(node)+1` slots, initially holding the root at position 0. -/
def start (nd : Node) : LeafIterState :=
  ⟨List.replicate (node.height nd + 1) nd, 0⟩

/-- The loop of src/rope.rs `node::leaf_iterator::next`: `cur` is the
node just popped from position `p` (so the stack position is `p - 1`);
a popped concat stores its right child at `p` and continues with its
left child at `p + 1`. -/
def next_loop (cur : Node) (stack : List Node) (p : Nat) :
    Option (Option Leaf × LeafIterState) :=
  match cur with
  | .leaf x => some (some x, ⟨stack, (p : Int) - 1⟩)
  | .concat l r _ _ _ =>
    if p + 1 < stack.length then
      next_loop l ((stack.set p r).set (p + 1) l) (p + 1)
    else none

/-- From src/rope.rs `node::leaf_iterator::next`: `some (none, it)` is
the exhausted answer, `some (some lf, it')` yields a leaf, `none` models
an out-of-bounds stack access. -/
def next (it : LeafIterState) : Option (Option Leaf × LeafIterState) :=
  if it.stackpos < 0 then some (none, it)
  else
    match node.vget it.stack it.stackpos.toNat with
    | none => none
    | some cur => next_loop cur it.stack it.stackpos.toNat

end leaf_iterator

namespace node

/-- The byte-copying inner loop of src/rope.rs `node::serialize_node`:
`while i < ed { buf[offset] = content[i]; offset += 1; i += 1 }` (the
source sets `ed` to the leaf's `byte_len`, not
`byte_offset + byte_len`). -/
def copy_loop (fuel : Nat) (content buf : List Nat) (i ed offset : Nat) :
    Option (List Nat × Nat) :=
  if i < ed then
    match fuel with
    | 0 => none
    | f + 1 =>
      match vget content i with
      | none => none
      | some b =>
        match vset buf offset b with
        | none => none
        | some buf' => copy_loop f content buf' (i + 1) ed (offset + 1)
  else some (buf, offset)

/-- The leaf-iterating loop of src/rope.rs `node::serialize_node`,
with fuel for the unbounded `loop`. -/
def serialize_go (fuel : Nat) (it : LeafIterState) (buf : List Nat)
    (offset : Nat) : Option (List Nat) :=
  match fuel with
  | 0 => none
  | f + 1 =>
    match leaf_iterator.next it with
    | none => none
    | some (none, _) => some buf
    | some (some x, it') =>
      match copy_loop x.byte_len x.content buf x.byte_offset x.byte_len
          offset with
      | none => none
      | some (buf', offset') => serialize_go f it' buf' offset'

/-- From src/rope.rs `node::serialize_node`: copy the leaves of `nd`
into one fresh zero-initialised buffer of `byte_len nd` bytes. -/
def serialize_node (fuel : Nat) (nd : Node) : Option (List Nat) :=
  serialize_go fuel (leaf_iterator.start nd)
    (List.replicate (byte_len nd) 0) 0

/-- From src/rope.rs `node::flatten`: replace a subtree by a single
leaf over a freshly serialized buffer (a leaf is returned unchanged). -/
def flatten (fuel : Nat) (nd : Node) : Option Node :=
  match nd with
  | .leaf _ => some nd
  | .concat _ _ cl bl _ =>
    match serialize_node fuel nd with
    | none => none
    | some buf => some (.leaf ⟨0, bl, cl, buf⟩)

/-- The inner pairing loop of src/rope.rs
`node::tree_from_forest_destructive`: before concatenating a pair,
flatten a side that is small while the pair is too big for one leaf,
and reserialize a side whose height reached `hint_max_node_height`. -/
def tff_pairs (fuel pfuel : Nat) (forest : List Node) (i len : Nat) :
    Option (List Node × Nat) :=
  if i < len - 1 then
    match pfuel with
    | 0 => none
    | pf + 1 => do
      let left0 ← vget forest i
      let right0 ← vget forest (i + 1)
      let left_len := char_len left0
      let right_len := char_len right0
      let left1 ←
        if left_len + right_len > hint_max_leaf_char_len ∧
            left_len ≤ hint_max_leaf_char_len then flatten fuel left0
        else some left0
      let right1 ←
        if left_len + right_len > hint_max_leaf_char_len ∧
            right_len ≤ hint_max_leaf_char_len then flatten fuel right0
        else some right0
      let left2 ←
        if height left1 ≥ hint_max_node_height then do
          let buf ← serialize_node fuel left1
          of_substr_unsafer buf 0 (byte_len left1) left_len
        else some left1
      let right2 ←
        if height right1 ≥ hint_max_node_height then do
          let buf ← serialize_node fuel right1
          of_substr_unsafer buf 0 (byte_len right1) right_len
        else some right1
      let forest' ← vset forest (i / 2) (concat2 left2 right2)
      tff_pairs fuel pf forest' (i + 2) len
  else some (forest, i)

/-- The outer `while len > 1` of src/rope.rs
`node::tree_from_forest_destructive`. `lfuel` makes the recursion
structural; `len` at least halves per round, so the vector length
supplied by `tree_from_forest_destructive` never runs out. -/
def tff_loop (fuel lfuel : Nat) (forest : List Node) (len : Nat) :
    Option Node :=
  if len > 1 then
    match lfuel with
    | 0 => none
    | lf + 1 => do
      let (forest', i) ← tff_pairs fuel len forest 0 len
      let forest'' ←
        if i = len - 1 then do
          let x ← vget forest' i
          vset forest' (i / 2) x
        else some forest'
      tff_loop fuel lf forest'' (div_ceil len 2)
  else vget forest 0

/-- From src/rope.rs `node::tree_from_forest_destructive`. -/
def tree_from_forest_destructive (fuel : Nat) (forest : List Node) :
    Option Node :=
  tff_loop fuel forest.length forest forest.length

/-- The leaf-gathering loop of src/rope.rs `node::bal`, with fuel for
the unbounded `loop`. -/
def bal_gather (fuel : Nat) (it : LeafIterState) (forest : List Node) :
    Option (List Node) :=
  match fuel with
  | 0 => none
  | f + 1 =>
    match leaf_iterator.next it with
    | none => none
    | some (none, _) => some forest
    | some (some x, it') => bal_gather f it' (forest ++ [Node.leaf x])

/-- From src/rope.rs `node::bal`: `some none` is the source's
`option::none` (height below the hint, nothing to do), `some (some x)`
the rebuilt node, and the outer `none` a failure. -/
def bal (fuel : Nat) (nd : Node) : Option (Option Node) :=
  if height nd < hint_max_node_height then some none
  else do
    let forest ← bal_gather fuel (leaf_iterator.start nd) []
    let root ← tree_from_forest_destructive fuel forest
    some (some root)

end node

/-- From src/rope.rs `node::char_iterator::t`: a leaf iterator, the
current leaf, and the byte cursor inside it. -/
structure CharIterState where
  li : LeafIterState
  leaf : Option Leaf
  leaf_byte_pos : Nat
deriving DecidableEq

namespace char_iterator

/-- From src/rope.rs `node::char_iterator::start`. -/
def start (nd : Node) : CharIterState :=
  ⟨leaf_iterator.start nd, none, 0⟩

/-- From src/rope.rs `node::char_iterator::empty`. -/
def empty : CharIterState := ⟨leaf_iterator.empty, none, 0⟩

/-- From src/rope.rs `node::char_iterator::get_current_or_next_leaf`. -/
def get_current_or_next_leaf (it : CharIterState) :
    Option (Option Leaf × CharIterState) :=
  match it.leaf with
  | some l => some (some l, it)
  | none =>
    match leaf_iterator.next it.li with
    | none => none
    | some (none, li') => some (none, { it with li := li' })
    | some (some l, li') => some (some l, ⟨li', some l, 0⟩)

/-- From src/rope.rs `node::char_iterator::get_next_char_in_leaf`:
decode one code point at the byte cursor, or report the current leaf
exhausted. -/
def get_next_char_in_leaf (it : CharIterState) :
    Option (Option Nat × CharIterState) :=
  match it.leaf with
  | none => some (none, it)
  | some aleaf =>
    if it.leaf_byte_pos ≥ aleaf.byte_len then
      some (none, { it with leaf := none })
    else
      match str.char_range_at aleaf.content
          (it.leaf_byte_pos + aleaf.byte_offset) with
      | none => none
      | some cn =>
        some (some cn.1, { it with leaf_byte_pos := cn.2 - aleaf.byte_offset })

/-- From src/rope.rs `node::char_iterator::next`, with fuel for the
outer `loop` (each `cont` iteration consumes one exhausted leaf). -/
def next (fuel : Nat) (it : CharIterState) :
    Option (Option Nat × CharIterState) :=
  match fuel with
  | 0 => none
  | f + 1 =>
    match get_current_or_next_leaf it with
    | none => none
    | some (none, it1) => some (none, it1)
    | some (some _, it1) =>
      match get_next_char_in_leaf it1 with
      | none => none
      | some (none, it2) => next f it2
      | some (some c, it2) => some (some c, it2)

end char_iterator

/-- Modelled from the spec: `char::cmp` is not among the repository's
files (the rope only calls it); spec section 4.6 orders iterators by
code-point value, the first divergence deciding. Negative when `a < b`,
zero when equal, positive when `a > b`. -/
def char_cmp (a b : Nat) : Int :=
  if a < b then -1 else if a = b then 0 else 1

namespace node

/-- The `while result == 0` loop of src/rope.rs `node::cmp`: advance
both char iterators in lockstep. `fuel` bounds the loop, `cfuel` is
passed to each `char_iterator::next` call. -/
def cmp_loop (fuel cfuel : Nat) (ita itb : CharIterState) (result : Int) :
    Option Int :=
  match fuel with
  | 0 => none
  | f + 1 =>
    if result = 0 then
      match char_iterator.next cfuel ita, char_iterator.next cfuel itb with
      | some (ca, ita'), some (cb, itb') =>
        match ca, cb with
        | none, none => some result
        | some chara, some charb =>
          cmp_loop f cfuel ita' itb' (char_cmp chara charb)
        | some _, none => cmp_loop f cfuel ita' itb' 1
        | none, some _ => cmp_loop f cfuel ita' itb' (-1)
      | _, _ => none
    else some result

/-- From src/rope.rs `node::cmp`: lexicographic comparison through two
char iterators. -/
def cmp (fuel cfuel : Nat) (a b : Node) : Option Int :=
  cmp_loop fuel cfuel (char_iterator.start a) (char_iterator.start b) 0

end node

namespace rope

/-- From src/rope.rs `empty`. -/
def empty : Root := Root.empty

/-- From src/rope.rs `of_substr` (the rope-level wrapper). -/
def of_substr (s : List Nat) (byte_offset byte_len : Nat) : Option Root :=
  if byte_len = 0 then some Root.empty
  else if byte_offset + byte_len > str.len s then none
  else
    match node.of_substr s byte_offset byte_len with
    | none => none
    | some nd => some (Root.content nd)

/-- From src/rope.rs `of_str`. -/
def of_str (s : List Nat) : Option Root := of_substr s 0 (str.len s)

/-- From src/rope.rs `append_rope`. -/
def append_rope (left right : Root) : Root :=
  match left with
  | .empty => right
  | .content left_content =>
    match right with
    | .empty => left
    | .content right_content =>
      Root.content (node.concat2 left_content right_content)

/-- The copying loop of src/rope.rs `concat`:
`uint::range(1, len) { ropes[i] = v[i] }`. -/
def concat_copy (fuel : Nat) (v ropes : List Root) (i len : Nat) :
    Option (List Root) :=
  if i < len then
    match fuel with
    | 0 => none
    | f + 1 => do
      let x ← node.vget v i
      let ropes' ← node.vset ropes i x
      concat_copy f v ropes' (i + 1) len
  else some ropes

/-- The inner merging loop of src/rope.rs `concat`:
`uint::range(0, len/2) { ropes[i] = append_rope(ropes[2i], ropes[2i+1]) }`. -/
def concat_merge (fuel : Nat) (ropes : List Root) (i half : Nat) :
    Option (List Root) :=
  if i < half then
    match fuel with
    | 0 => none
    | f + 1 => do
      let a ← node.vget ropes (2 * i)
      let b ← node.vget ropes (2 * i + 1)
      let ropes' ← node.vset ropes i (append_rope a b)
      concat_merge f ropes' (i + 1) half
  else some ropes

/-- The outer `while len > 1` of src/rope.rs `concat`, with the carry of
an odd leftover. `fuel` makes the recursion structural; `len` at least
halves per round, so the vector length supplied by `concat` never runs
out. -/
def concat_loop (fuel : Nat) (ropes : List Root) (len : Nat) :
    Option Root :=
  if len > 1 then
    match fuel with
    | 0 => none
    | f + 1 => do
      let ropes' ← concat_merge (len / 2) ropes 0 (len / 2)
      if len % 2 ≠ 0 then do
        let x ← node.vget ropes' (len - 1)
        let ropes'' ← node.vset ropes' (len / 2) x
        concat_loop f ropes'' (len / 2 + 1)
      else concat_loop f ropes' (len / 2)
  else node.vget ropes 0

/-- From src/rope.rs `concat`: pairwise tournament merge of a vector of
ropes. -/
def concat (v : List Root) : Option Root :=
  let len := v.length
  if len = 0 then some Root.empty
  else do
    let v0 ← node.vget v 0
    let ropes := List.replicate len v0
    let ropes' ← concat_copy len v ropes 1 len
    concat_loop len ropes' len

/-- From src/rope.rs `bal` (the rope-level wrapper). -/
def bal (fuel : Nat) (r : Root) : Option Root :=
  match r with
  | .empty => some r
  | .content x =>
    match node.bal fuel x with
    | none => none
    | some none => some r
    | some (some y) => some (Root.content y)

/-- From src/rope.rs `sub_chars` (the rope-level wrapper): a zero-length
request yields the empty rope before descending; the only range check is
`char_len > node::char_len(node)`. -/
def sub_chars (r : Root) (char_offset char_len : Nat) : Option Root :=
  if char_len = 0 then some Root.empty
  else
    match r with
    | .empty => none
    | .content nd =>
      if char_len > node.char_len nd then none
      else
        match node.sub_chars nd char_offset char_len with
        | none => none
        | some x => some (Root.content x)

/-- From src/rope.rs `sub_bytes` (the rope-level wrapper). -/
def sub_bytes (r : Root) (byte_offset byte_len : Nat) : Option Root :=
  if byte_len = 0 then some Root.empty
  else
    match r with
    | .empty => none
    | .content nd =>
      if byte_len > node.byte_len nd then none
      else
        match node.sub_bytes nd byte_offset byte_len with
        | none => none
        | some x => some (Root.content x)

/-- From src/rope.rs `cmp` (the rope-level wrapper). -/
def cmp (fuel cfuel : Nat) (left right : Root) : Option Int :=
  match left, right with
  | .empty, .empty => some 0
  | .empty, _ => some (-1)
  | _, .empty => some 1
  | .content a, .content b => node.cmp fuel cfuel a b

/-- From src/rope.rs `height`. -/
def height : Root → Nat
  | .empty => 0
  | .content x => node.height x

/-- From src/rope.rs `char_len`. -/
def char_len : Root → Nat
  | .empty => 0
  | .content x => node.char_len x

/-- From src/rope.rs `byte_len`. -/
def byte_len : Root → Nat
  | .empty => 0
  | .content x => node.byte_len x

end rope

/-- The byte slice a leaf stands for: bytes
`[byte_offset, byte_offset + byte_len)` of its buffer. -/
def leafBytes (x : Leaf) : List Nat :=
  (x.content.drop x.byte_offset).take x.byte_len

/-- The flattened byte string of a node: its leaves' slices in
left-to-right order. -/
def nodeBytes : Node → List Nat
  | .leaf x => leafBytes x
  | .concat l r _ _ _ => nodeBytes l ++ nodeBytes r

/-- The flattened byte string of a rope. -/
def rootBytes : Root → List Nat
  | .empty => []
  | .content n => nodeBytes n

/-- The code-point content of a node (some, when its bytes are valid
UTF-8). -/
def nodeChars (n : Node) : Option (List Nat) :=
  str.decode_str (nodeBytes n)

/-- The code-point content of a rope. -/
def rootChars (r : Root) : Option (List Nat) :=
  str.decode_str (rootBytes r)

/-- The concatenated flattened bytes of a list of nodes. -/
def bytesJoin (l : List Node) : List Nat :=
  (l.map nodeBytes).flatten

/-- The concatenated flattened bytes of a list of ropes. -/
def rootsJoin (l : List Root) : List Nat :=
  (l.map rootBytes).flatten

/-- The leaves of a node, left to right. -/
def leavesOf : Node → List Leaf
  | .leaf x => [x]
  | .concat l r _ _ _ => leavesOf l ++ leavesOf r

/-- The structural height of a node (leaves have height 0). -/
def realHeight : Node → Nat
  | .leaf _ => 0
  | .concat l r _ _ _ => Nat.max (realHeight l) (realHeight r) + 1

/-- The number of constructors of a node, an induction measure. -/
def nodeSize : Node → Nat
  | .leaf _ => 1
  | .concat l r _ _ _ => nodeSize l + nodeSize r + 1

/-- Well-formedness of a leaf (spec section 3): the byte range is inside
the buffer, non-empty, and holds exactly `char_len` code points. -/
def wfLeaf (x : Leaf) : Bool :=
  decide (x.byte_offset + x.byte_len ≤ x.content.length) &&
  decide (0 < x.byte_len) &&
  ((str.decode_str (leafBytes x)).map List.length == some x.char_len)

/-- Well-formedness of a node (spec section 3): well-formed leaves and
correct cached lengths and heights in every concat. -/
def wfNode : Node → Bool
  | .leaf x => wfLeaf x
  | .concat l r cl bl h =>
    wfNode l && wfNode r && (cl == node.char_len l + node.char_len r) &&
    (bl == node.byte_len l + node.byte_len r) &&
    (h == Nat.max (node.height l) (node.height r) + 1)

/-- Well-formedness of a rope. -/
def wfRoot : Root → Bool
  | .empty => true
  | .content n => wfNode n

/-- Lexicographic code-point comparison of two char sequences (spec
section 4.6), expressed with `char_cmp`. -/
def lexCompare : List Nat → List Nat → Int
  | [], [] => 0
  | [], _ :: _ => -1
  | _ :: _, [] => 1
  | a :: as', b :: bs' =>
    if char_cmp a b = 0 then lexCompare as' bs' else char_cmp a b

/-- Run the leaf iterator for at most `fuel` calls to `next`, collecting
the yielded leaves; `none` when a call fails (out-of-bounds stack
access) or the fuel ends before exhaustion is reported. -/
def runLeaves (fuel : Nat) (it : LeafIterState) : Option (List Leaf) :=
  match fuel with
  | 0 => none
  | f + 1 =>
    match leaf_iterator.next it with
    | none => none
    | some (none, _) => some []
    | some (some l, it') =>
      match runLeaves f it' with
      | none => none
      | some ls => some (l :: ls)

/-- Run the char iterator for at most `steps` calls to `next` (each with
`cfuel` fuel), collecting the yielded code points. -/
def runChars (steps cfuel : Nat) (it : CharIterState) :
    Option (List Nat) :=
  match steps with
  | 0 => none
  | f + 1 =>
    match char_iterator.next cfuel it with
    | none => none
    | some (none, _) => some []
    | some (some c, it') =>
      match runChars f cfuel it' with
      | none => none
      | some cs => some (c :: cs)

/-- A Bool well-formedness check of the cached heights alone: every
concat node's `height` field is one more than the max of its
children's. -/
def wfHeight : Node → Bool
  | .leaf _ => true
  | .concat l r _ _ h =>
    wfHeight l && wfHeight r && (h == Nat.max (node.height l) (node.height r) + 1)

/-- The number of leaves of a node. -/
def leafCount (n : Node) : Nat := (leavesOf n).length

/-- The rope of the C3 balancing scenario, built through the public
API: a two-char leaf at byte offset 1 of its buffer (from `sub_chars`
of `of_str "xAB"`), sixteen one-char leaves and one 256-char leaf,
appended left to right into a height-17 chain. -/
def balCorruptInput : Option Root := do
  let x ← rope.of_str [120, 65, 66]
  let b ← rope.sub_chars x 1 2
  let a ← rope.of_str [97]
  let g ← rope.of_str (List.replicate 256 98)
  some (List.foldl rope.append_rope b (List.replicate 16 a ++ [g]))

/-- The leaves still to be yielded by a leaf-iterator state: the leaves
of the nodes at stack positions `stackpos` down to 0, concatenated. -/
def pendingLeaves (st : List Node) (spi : Int) : List Leaf :=
  if spi < 0 then []
  else (((st.take (spi.toNat + 1)).map leavesOf).reverse).flatten

/-- The char-iterator state `it` is about to yield exactly the code
points `cs`: the leaf iterator still holds well-formed leaves decoding
to `css`, and the current leaf (if any) is well formed with its byte
cursor on a code-point boundary, `csr` chars remaining in it. -/
def StreamInv (it : CharIterState) (cs : List Nat) : Prop :=
  ∃ (ls : List Leaf) (css : List (List Nat)) (csr : List Nat),
    runLeaves (ls.length + 1) it.li = some ls ∧
    List.Forall₂ (fun lf c => str.decode_str (leafBytes lf) = some c)
      ls css ∧
    (∀ lf ∈ ls, wfLeaf lf = true) ∧
    cs = csr ++ css.flatten ∧
    ((it.leaf = none ∧ csr = []) ∨
      ∃ lf, it.leaf = some lf ∧ wfLeaf lf = true ∧
        it.leaf_byte_pos ≤ lf.byte_len ∧
        str.decode_str ((leafBytes lf).drop it.leaf_byte_pos) = some csr)

/-!
Lemmas about `str.char_range_at`: progress, bounds, and locality
(shifting by a prefix, extending or restricting the buffer on the
right).
-/

theorem get?_some_lt {α : Type} {l : List α} {n : Nat} {a : α}
    (h : l.get? n = some a) : n < l.length := by
  by_contra hh
  rw [List.get?_eq_none.mpr (by omega)] at h
  cases h

theorem decode_cont_succ (s : List Nat) (i c v : Nat) :
    str.decode_cont s i (c + 1) v =
      match s.get? i with
      | none => none
      | some byte =>
        if Nat.land byte 192 = str.tag_cont_u8 then
          str.decode_cont s (i + 1) c (v * 64 + Nat.land byte 63)
        else none := rfl

theorem decode_cont_some_lt {s : List Nat} : ∀ {k j v val : Nat},
    str.decode_cont s j (k + 1) v = some val → j + k < s.length := by
  intro k
  induction k with
  | zero =>
    intro j v val h
    rw [decode_cont_succ] at h
    cases hg : s.get? j with
    | none => rw [hg] at h; exact absurd h (by simp)
    | some b =>
      have := get?_some_lt hg
      omega
  | succ k ih =>
    intro j v val h
    rw [decode_cont_succ] at h
    cases hg : s.get? j with
    | none => rw [hg] at h; exact absurd h (by simp)
    | some b =>
      rw [hg] at h
      simp only at h
      by_cases hc : Nat.land b 192 = str.tag_cont_u8
      · rw [if_pos hc] at h
        have := ih h
        omega
      · rw [if_neg hc] at h; exact absurd h (by simp)

theorem char_range_at_bounds {s : List Nat} {i : Nat} {cn : Nat × Nat}
    (h : str.char_range_at s i = some cn) :
    i < cn.2 ∧ cn.2 ≤ s.length ∧ i < s.length := by
  unfold str.char_range_at at h
  cases hg : s.get? i with
  | none => rw [hg] at h; exact absurd h (by simp)
  | some b0 =>
    rw [hg] at h
    have hi : i < s.length := (List.get?_eq_some.mp hg).1
    simp only at h
    by_cases h0 : str.utf8_char_width b0 = 0
    · rw [if_pos h0] at h; exact absurd h (by simp)
    rw [if_neg h0] at h
    by_cases h1 : str.utf8_char_width b0 = 1
    · rw [if_pos h1] at h
      cases h
      omega
    rw [if_neg h1] at h
    cases hd : str.decode_cont s (i + 1) (str.utf8_char_width b0 - 1) 0 with
    | none => rw [hd] at h; exact absurd h (by simp)
    | some val =>
      rw [hd] at h
      cases h
      have hw : 2 ≤ str.utf8_char_width b0 := by omega
      have := decode_cont_some_lt
        (show str.decode_cont s (i + 1) ((str.utf8_char_width b0 - 2) + 1) 0
            = some val by
          have : str.utf8_char_width b0 - 1 = (str.utf8_char_width b0 - 2) + 1 := by
            omega
          rw [← this]; exact hd)
      refine ⟨by omega, by omega, hi⟩

theorem decode_cont_shift (a s : List Nat) :
    ∀ k j v, str.decode_cont (a ++ s) (a.length + j) k v =
      str.decode_cont s j k v := by
  intro k
  induction k with
  | zero => intro j v; rfl
  | succ k ih =>
    intro j v
    simp only [str.decode_cont]
    have hg : (a ++ s).get? (a.length + j) = s.get? j := by
      rw [List.get?_eq_getElem?, List.get?_eq_getElem?,
        List.getElem?_append_right (by omega)]
      congr 1
      omega
    rw [hg]
    cases s.get? j with
    | none => rfl
    | some b =>
      dsimp only
      by_cases hc : Nat.land b 192 = str.tag_cont_u8
      · rw [if_pos hc, if_pos hc]
        have : a.length + j + 1 = a.length + (j + 1) := by omega
        rw [this, ih]
      · rw [if_neg hc, if_neg hc]

theorem char_range_at_shift (a s : List Nat) (i : Nat) :
    str.char_range_at (a ++ s) (a.length + i) =
      (str.char_range_at s i).map (fun cn => (cn.1, a.length + cn.2)) := by
  unfold str.char_range_at
  have hg : (a ++ s).get? (a.length + i) = s.get? i := by
    rw [List.get?_eq_getElem?, List.get?_eq_getElem?,
      List.getElem?_append_right (by omega)]
    congr 1
    omega
  rw [hg]
  cases s.get? i with
  | none => rfl
  | some b0 =>
    simp only
    by_cases h0 : str.utf8_char_width b0 = 0
    · rw [if_pos h0, if_pos h0]; rfl
    rw [if_neg h0, if_neg h0]
    by_cases h1 : str.utf8_char_width b0 = 1
    · rw [if_pos h1, if_pos h1]; rfl
    rw [if_neg h1, if_neg h1]
    have : a.length + i + 1 = a.length + (i + 1) := by omega
    rw [this, decode_cont_shift]
    cases str.decode_cont s (i + 1) (str.utf8_char_width b0 - 1) 0 with
    | none => rfl
    | some val =>
      simp only [Option.map_some']
      rw [Nat.add_assoc]

theorem decode_cont_extend {s : List Nat} (t : List Nat) :
    ∀ k j v val, str.decode_cont s j k v = some val → j + k ≤ s.length →
      str.decode_cont (s ++ t) j k v = some val := by
  intro k
  induction k with
  | zero => intro j v val h _; exact h
  | succ k ih =>
    intro j v val h hb
    simp only [str.decode_cont] at h ⊢
    cases hg : s.get? j with
    | none => rw [hg] at h; exact absurd h (by simp)
    | some b =>
      rw [hg] at h
      have hj : j < s.length := (List.get?_eq_some.mp hg).1
      have hg2 : (s ++ t).get? j = some b := by
        rw [List.get?_eq_getElem?, List.getElem?_append_left hj,
          ← List.get?_eq_getElem?]
        exact hg
      rw [hg2]
      dsimp only at h ⊢
      by_cases hc : Nat.land b 192 = str.tag_cont_u8
      · rw [if_pos hc] at h ⊢
        exact ih (j + 1) _ _ h (by omega)
      · rw [if_neg hc] at h; exact absurd h (by simp)

theorem decode_cont_restrict {s : List Nat} (t : List Nat) :
    ∀ k j v val, str.decode_cont (s ++ t) j k v = some val →
      j + k ≤ s.length → str.decode_cont s j k v = some val := by
  intro k
  induction k with
  | zero => intro j v val h _; exact h
  | succ k ih =>
    intro j v val h hb
    simp only [str.decode_cont] at h ⊢
    cases hg : (s ++ t).get? j with
    | none => rw [hg] at h; exact absurd h (by simp)
    | some b =>
      rw [hg] at h
      have hg2 : s.get? j = some b := by
        rw [List.get?_eq_getElem?]
        rw [List.get?_eq_getElem?, List.getElem?_append_left (by omega)] at hg
        exact hg
      rw [hg2]
      dsimp only at h ⊢
      by_cases hc : Nat.land b 192 = str.tag_cont_u8
      · rw [if_pos hc] at h ⊢
        exact ih (j + 1) _ _ h (by omega)
      · rw [if_neg hc] at h; exact absurd h (by simp)

theorem char_range_at_extend {s : List Nat} (t : List Nat) {i : Nat}
    {cn : Nat × Nat} (h : str.char_range_at s i = some cn) :
    str.char_range_at (s ++ t) i = some cn := by
  obtain ⟨h1, h2, h3⟩ := char_range_at_bounds h
  unfold str.char_range_at at h ⊢
  cases hg : s.get? i with
  | none => rw [hg] at h; exact absurd h (by simp)
  | some b0 =>
    rw [hg] at h
    have hg2 : (s ++ t).get? i = some b0 := by
      rw [List.get?_eq_getElem?, List.getElem?_append_left h3,
        ← List.get?_eq_getElem?]
      exact hg
    rw [hg2]
    simp only at h ⊢
    by_cases h0 : str.utf8_char_width b0 = 0
    · rw [if_pos h0] at h; exact absurd h (by simp)
    rw [if_neg h0] at h ⊢
    by_cases hw : str.utf8_char_width b0 = 1
    · rw [if_pos hw] at h ⊢; exact h
    rw [if_neg hw] at h ⊢
    cases hd : str.decode_cont s (i + 1) (str.utf8_char_width b0 - 1) 0 with
    | none => rw [hd] at h; exact absurd h (by simp)
    | some val =>
      rw [hd] at h
      cases h
      rw [decode_cont_extend t _ _ _ _ hd (by omega)]

theorem char_range_at_restrict {s : List Nat} (t : List Nat) {i : Nat}
    {cn : Nat × Nat} (h : str.char_range_at (s ++ t) i = some cn)
    (hb : cn.2 ≤ s.length) : str.char_range_at s i = some cn := by
  obtain ⟨h1, h2, h3⟩ := char_range_at_bounds h
  have hi : i < s.length := by omega
  unfold str.char_range_at at h ⊢
  cases hg : (s ++ t).get? i with
  | none => rw [hg] at h; exact absurd h (by simp)
  | some b0 =>
    rw [hg] at h
    have hg2 : s.get? i = some b0 := by
      rw [List.get?_eq_getElem?]
      rw [List.get?_eq_getElem?, List.getElem?_append_left hi] at hg
      exact hg
    rw [hg2]
    simp only at h ⊢
    by_cases h0 : str.utf8_char_width b0 = 0
    · rw [if_pos h0] at h; exact absurd h (by simp)
    rw [if_neg h0] at h ⊢
    by_cases hw : str.utf8_char_width b0 = 1
    · rw [if_pos hw] at h ⊢; exact h
    rw [if_neg hw] at h ⊢
    cases hd : str.decode_cont (s ++ t) (i + 1) (str.utf8_char_width b0 - 1) 0 with
    | none => rw [hd] at h; exact absurd h (by simp)
    | some val =>
      rw [hd] at h
      cases h
      rw [decode_cont_restrict t _ _ _ _ hd (by simp at hb ⊢; omega)]


/-!
Lemmas about the derived decoder `str.decode_str`.
-/

theorem decode_go_nil (f : Nat) : str.decode_go f [] = some [] := by
  cases f <;> rfl

theorem decode_go_cons (f : Nat) (b : Nat) (s' : List Nat) :
    str.decode_go (f + 1) (b :: s') =
      match str.char_range_at (b :: s') 0 with
      | none => none
      | some cn =>
        match str.decode_go f ((b :: s').drop cn.2) with
        | none => none
        | some cs => some (cn.1 :: cs) := rfl

theorem decode_go_congr {s : List Nat} : ∀ {f g : Nat},
    s.length ≤ f → s.length ≤ g → str.decode_go f s = str.decode_go g s := by
  generalize hs : s.length = n
  induction n using Nat.strong_induction_on generalizing s with
  | _ n ih =>
    intro f g hf hg
    cases s with
    | nil => rw [decode_go_nil, decode_go_nil]
    | cons b s' =>
      simp only [List.length_cons] at hs
      obtain ⟨f', rfl⟩ : ∃ f', f = f' + 1 := ⟨f - 1, by omega⟩
      obtain ⟨g', rfl⟩ : ∃ g', g = g' + 1 := ⟨g - 1, by omega⟩
      rw [decode_go_cons, decode_go_cons]
      cases hc : str.char_range_at (b :: s') 0 with
      | none => rfl
      | some cn =>
        dsimp only
        obtain ⟨h1, h2, _⟩ := char_range_at_bounds hc
        simp only [List.length_cons] at h2
        have hrw := ih (((b :: s').drop cn.2).length)
          (by simp only [List.length_drop, List.length_cons]; omega)
          rfl (f := f') (g := g')
          (by simp only [List.length_drop, List.length_cons]; omega)
          (by simp only [List.length_drop, List.length_cons]; omega)
        rw [hrw]

theorem decode_go_eq_decode_str {s : List Nat} {f : Nat}
    (hf : s.length ≤ f) : str.decode_go f s = str.decode_str s :=
  decode_go_congr hf (Nat.le_refl _)

theorem decode_str_cons_elim {s : List Nat} {cs : List Nat}
    (h : str.decode_str s = some cs) (hne : s ≠ []) :
    ∃ cn : Nat × Nat, ∃ cs', str.char_range_at s 0 = some cn ∧
      str.decode_str (s.drop cn.2) = some cs' ∧ cs = cn.1 :: cs' ∧
      0 < cn.2 ∧ cn.2 ≤ s.length := by
  unfold str.decode_str at h
  cases s with
  | nil => exact absurd rfl hne
  | cons b s' =>
    rw [List.length_cons, decode_go_cons] at h
    cases hc : str.char_range_at (b :: s') 0 with
    | none => rw [hc] at h; exact absurd h (by simp)
    | some cn =>
      rw [hc] at h
      dsimp only at h
      obtain ⟨h1, h2, _⟩ := char_range_at_bounds hc
      simp only [List.length_cons] at h2
      cases hd : str.decode_go s'.length ((b :: s').drop cn.2) with
      | none => rw [hd] at h; exact absurd h (by simp)
      | some cs' =>
        rw [hd] at h
        dsimp only at h
        have hcs : cs = cn.1 :: cs' := by
          cases h
          rfl
        have hdd : str.decode_str ((b :: s').drop cn.2) = some cs' := by
          rw [← decode_go_eq_decode_str
            (f := s'.length)
            (by simp only [List.length_drop, List.length_cons]; omega)]
          exact hd
        have hlen : cn.2 ≤ (b :: s').length := by
          simp only [List.length_cons]
          omega
        exact ⟨cn, cs', rfl, hdd, hcs, h1, hlen⟩

theorem decode_str_cons_intro {s : List Nat} {cn : Nat × Nat}
    {cs' : List Nat} (hc : str.char_range_at s 0 = some cn)
    (hd : str.decode_str (s.drop cn.2) = some cs') :
    str.decode_str s = some (cn.1 :: cs') := by
  obtain ⟨h1, h2, h3⟩ := char_range_at_bounds hc
  cases s with
  | nil => simp at h3
  | cons b s' =>
    show str.decode_go (b :: s').length (b :: s') = _
    rw [List.length_cons, decode_go_cons, hc]
    dsimp only
    rw [decode_go_eq_decode_str
      (by simp only [List.length_drop, List.length_cons] at h2 ⊢; omega), hd]

theorem decode_str_eq_nil {s : List Nat}
    (h : str.decode_str s = some []) : s = [] := by
  by_contra hne
  obtain ⟨cn, cs', _, _, habs, _, _⟩ := decode_str_cons_elim h hne
  cases habs

theorem decode_str_append {a : List Nat} : ∀ {b ca cb : List Nat},
    str.decode_str a = some ca → str.decode_str b = some cb →
    str.decode_str (a ++ b) = some (ca ++ cb) := by
  generalize hl : a.length = n
  induction n using Nat.strong_induction_on generalizing a with
  | _ n ih =>
    intro b ca cb ha hb
    cases has : a with
    | nil =>
      subst has
      rw [show str.decode_str [] = some [] from rfl] at ha
      cases ha
      simpa using hb
    | cons x a' =>
      have hne : a ≠ [] := by rw [has]; exact List.cons_ne_nil x a'
      obtain ⟨cn, cs', hc, hd, rfl, h1, h2⟩ := decode_str_cons_elim ha hne
      have hcab : str.char_range_at (a ++ b) 0 = some cn :=
        char_range_at_extend b hc
      have hdrop : (a ++ b).drop cn.2 = a.drop cn.2 ++ b := by
        rw [List.drop_append_eq_append_drop, Nat.sub_eq_zero_of_le h2,
          List.drop_zero]
      have hrec : str.decode_str (a.drop cn.2 ++ b) = some (cs' ++ cb) := by
        refine ih (a.drop cn.2).length ?_ rfl hd hb
        simp only [List.length_drop]
        omega
      have := decode_str_cons_intro hcab (by rw [hdrop]; exact hrec)
      rw [← has]
      exact this

theorem decode_str_take_first {s : List Nat} {cn : Nat × Nat}
    (hc : str.char_range_at s 0 = some cn) :
    str.decode_str (s.take cn.2) = some [cn.1] := by
  obtain ⟨h1, h2, h3⟩ := char_range_at_bounds hc
  have hcr : str.char_range_at (s.take cn.2) 0 = some cn := by
    refine char_range_at_restrict (s.drop cn.2) ?_ ?_
    · rw [List.take_append_drop]
      exact hc
    · rw [List.length_take]
      omega
  have hdr : (s.take cn.2).drop cn.2 = [] := by
    apply List.drop_eq_nil_of_le
    rw [List.length_take]
    omega
  have := decode_str_cons_intro hcr (by rw [hdr]; rfl)
  simpa using this

theorem decode_str_split {s : List Nat} {cs : List Nat} {cn : Nat × Nat}
    (h : str.decode_str s = some cs) (hne : s ≠ [])
    (hc : str.char_range_at s 0 = some cn) :
    ∃ cs', cs = cn.1 :: cs' ∧ str.decode_str (s.drop cn.2) = some cs' := by
  obtain ⟨cn', cs', hc', hd, rfl, _, _⟩ := decode_str_cons_elim h hne
  rw [hc] at hc'
  cases hc'
  exact ⟨cs', rfl, hd⟩


/-!
Specifications of `str.count_bytes` and `str.count_chars` on valid
UTF-8 input, phrased relative to an arbitrary prefix of the buffer.
-/

theorem first_byte_boundary {s : List Nat} {cn : Nat × Nat} {b : Nat}
    (hc : str.char_range_at s 0 = some cn) (hg : s.get? 0 = some b) :
    b < 128 ∨ 192 ≤ b := by
  unfold str.char_range_at at hc
  rw [hg] at hc
  simp only at hc
  by_cases h0 : str.utf8_char_width b = 0
  · rw [if_pos h0] at hc; exact absurd hc (by simp)
  · unfold str.utf8_char_width at h0
    by_cases hb1 : b < 128
    · exact Or.inl hb1
    · rw [if_neg hb1] at h0
      by_cases hb2 : b < 192
      · rw [if_pos hb2] at h0; exact absurd rfl h0
      · exact Or.inr (by omega)

theorem boundary_of_decode {s cs : List Nat} (pre : List Nat)
    (h : str.decode_str s = some cs) :
    str.is_char_boundary (pre ++ s) pre.length = some true := by
  cases s with
  | nil =>
    unfold str.is_char_boundary
    rw [if_pos (by simp)]
  | cons b s' =>
    obtain ⟨cn, cs', hc, _, _, _, _⟩ :=
      decode_str_cons_elim h (List.cons_ne_nil b s')
    have hg : (pre ++ b :: s').get? pre.length = some b := by
      rw [List.get?_eq_getElem?, List.getElem?_append_right (Nat.le_refl _),
        Nat.sub_self]
      simp
    have hg0 : (b :: s').get? 0 = some b := by simp
    unfold str.is_char_boundary
    rw [if_neg (by simp), hg]
    rcases first_byte_boundary hc hg0 with hb | hb
    · simp [hb]
    · simp only [Option.some.injEq]
      rw [Bool.or_eq_true]
      right
      simp only [decide_eq_true_eq]
      omega

theorem count_bytes_loop_spec : ∀ (n : Nat) {s cs : List Nat}
    (pre : List Nat), str.decode_str s = some cs → n ≤ cs.length →
    ∃ k, str.count_bytes_loop (pre ++ s) pre.length n =
        some (pre.length + k) ∧ k ≤ s.length ∧
      str.decode_str (s.take k) = some (cs.take n) ∧
      str.decode_str (s.drop k) = some (cs.drop n) := by
  intro n
  induction n with
  | zero =>
    intro s cs pre h _
    refine ⟨0, ?_, by omega, ?_, ?_⟩
    · unfold str.count_bytes_loop
      rw [Nat.add_zero]
    · rw [List.take_zero, List.take_zero]
      rfl
    · rw [List.drop_zero, List.drop_zero]
      exact h
  | succ n ih =>
    intro s cs pre h hn
    have hne : s ≠ [] := by
      intro hnil
      subst hnil
      rw [show str.decode_str [] = some [] from rfl] at h
      cases h
      simp at hn
    obtain ⟨cn, cs₂, hc, hd, rfl, h1, h2⟩ := decode_str_cons_elim h hne
    have hshift : str.char_range_at (pre ++ s) pre.length =
        some (cn.1, pre.length + cn.2) := by
      have := char_range_at_shift pre s 0
      rw [Nat.add_zero] at this
      rw [this, hc]
      rfl
    have hlt : pre.length < (pre ++ s).length := by
      simp only [List.length_append]
      cases s with
      | nil => exact absurd rfl hne
      | cons x xs => simp
    have hsplit : pre ++ s = (pre ++ s.take cn.2) ++ s.drop cn.2 := by
      rw [List.append_assoc, List.take_append_drop]
    have hplen : (pre ++ s.take cn.2).length = pre.length + cn.2 := by
      simp only [List.length_append, List.length_take]
      omega
    obtain ⟨k', hk', hkle, htake, hdrop⟩ :=
      ih (pre ++ s.take cn.2) hd (by
        simp only [List.length_cons] at hn
        omega)
    refine ⟨cn.2 + k', ?_, ?_, ?_, ?_⟩
    · show str.count_bytes_loop (pre ++ s) pre.length (n + 1) = _
      unfold str.count_bytes_loop
      rw [if_pos hlt, hshift]
      simp only
      rw [hsplit, ← hplen]
      rw [hk', hplen]
      congr 1
      omega
    · simp only [List.length_drop] at hkle
      omega
    · rw [List.take_add]
      have hfirst := decode_str_take_first hc
      have := decode_str_append hfirst htake
      simpa using this
    · rw [← List.drop_drop]
      simpa using hdrop

theorem count_bytes_spec {s cs : List Nat} (pre : List Nat) {n : Nat}
    (h : str.decode_str s = some cs) (hn : n ≤ cs.length) :
    ∃ k, str.count_bytes (pre ++ s) pre.length n = some k ∧
      k ≤ s.length ∧
      str.decode_str (s.take k) = some (cs.take n) ∧
      str.decode_str (s.drop k) = some (cs.drop n) := by
  obtain ⟨k, hk, hkle, htake, hdrop⟩ := count_bytes_loop_spec n pre h hn
  refine ⟨k, ?_, hkle, htake, hdrop⟩
  unfold str.count_bytes
  rw [boundary_of_decode pre h, hk]
  simp only [Option.some.injEq]
  omega

theorem count_chars_loop_spec : ∀ {s cs : List Nat} (pre : List Nat)
    (acc fuel : Nat), str.decode_str s = some cs → s.length ≤ fuel →
    str.count_chars_loop (pre ++ s) fuel pre.length
        (pre.length + s.length) acc = some (acc + cs.length) := by
  intro s
  generalize hl : s.length = N
  induction N using Nat.strong_induction_on generalizing s with
  | _ N ihN =>
    intro cs pre acc fuel h hf
    cases s with
    | nil =>
      rw [show str.decode_str [] = some [] from rfl] at h
      cases h
      have h0 : N = 0 := by simpa using hl.symm
      subst h0
      unfold str.count_chars_loop
      simp
    | cons b s' =>
      have hN : N = s'.length + 1 := by
        rw [← hl]
        rfl
      obtain ⟨cn, cs₂, hc, hd, rfl, h1, h2⟩ :=
        decode_str_cons_elim h (List.cons_ne_nil b s')
      simp only [List.length_cons] at h2
      have hshift : str.char_range_at (pre ++ b :: s') pre.length =
          some (cn.1, pre.length + cn.2) := by
        have := char_range_at_shift pre (b :: s') 0
        rw [Nat.add_zero] at this
        rw [this, hc]
        rfl
      obtain ⟨f', rfl⟩ : ∃ f', fuel = f' + 1 := ⟨fuel - 1, by omega⟩
      unfold str.count_chars_loop
      rw [if_pos (by omega), hshift]
      simp only
      have hplen : (pre ++ (b :: s').take cn.2).length =
          pre.length + cn.2 := by
        simp only [List.length_append, List.length_take, List.length_cons]
        omega
      have hdlen : ((b :: s').drop cn.2).length = s'.length + 1 - cn.2 := by
        simp only [List.length_drop, List.length_cons]
      have hrec := ihN (((b :: s').drop cn.2).length) (by omega) rfl
        (pre ++ (b :: s').take cn.2) (acc + 1) f' hd (by omega)
      rw [hplen] at hrec
      have hsplit : pre ++ b :: s' =
          (pre ++ (b :: s').take cn.2) ++ (b :: s').drop cn.2 := by
        rw [List.append_assoc, List.take_append_drop]
      have hed : pre.length + N =
          pre.length + cn.2 + ((b :: s').drop cn.2).length := by
        omega
      rw [hsplit, hed, ← hplen]
      rw [hplen, hrec]
      simp only [List.length_cons, Option.some.injEq]
      omega

theorem count_chars_all {s cs : List Nat}
    (h : str.decode_str s = some cs) :
    str.count_chars s 0 s.length = some cs.length := by
  unfold str.count_chars
  have hb0 : str.is_char_boundary s 0 = some true := by
    have := boundary_of_decode [] h
    simpa using this
  have hbl : str.is_char_boundary s s.length = some true := by
    unfold str.is_char_boundary
    rw [if_pos rfl]
  rw [hb0, hbl]
  have := count_chars_loop_spec (s := s) [] 0 s.length h (Nat.le_refl _)
  simpa using this


/-!
Content preservation of the pairwise collapsing loops of
`node::of_substr_unsafer` (which `concat` and
`tree_from_forest_destructive` mirror).
-/

theorem bytesJoin_nil : bytesJoin [] = [] := rfl

theorem bytesJoin_cons (n : Node) (l : List Node) :
    bytesJoin (n :: l) = nodeBytes n ++ bytesJoin l := by
  unfold bytesJoin
  rw [List.map_cons, List.flatten_cons]

theorem bytesJoin_append (a b : List Node) :
    bytesJoin (a ++ b) = bytesJoin a ++ bytesJoin b := by
  unfold bytesJoin
  rw [List.map_append, List.flatten_append]

theorem nodeBytes_concat2 (a b : Node) :
    nodeBytes (node.concat2 a b) = nodeBytes a ++ nodeBytes b := rfl

theorem vget_eq {α : Type} {v : List α} {i : Nat} (h : i < v.length) :
    node.vget v i = some (v.get ⟨i, h⟩) := by
  unfold node.vget
  rw [List.get?_eq_get h]

theorem vset_eq {α : Type} {v : List α} {i : Nat} (x : α)
    (h : i < v.length) : node.vset v i x = some (v.set i x) := by
  unfold node.vset
  rw [if_pos h]

theorem collapse_pairs_spec : ∀ (d fuel : Nat) (v : List Node)
    (i len : Nat), len - i = d → len ≤ v.length → i % 2 = 0 →
    i ≤ len → d ≤ fuel →
    ∃ ps : List Node,
      node.collapse_pairs fuel v i len =
        some (v.take (i / 2) ++ ps ++ v.drop (i / 2 + ps.length),
          i + 2 * ps.length) ∧
      len - 1 ≤ i + 2 * ps.length ∧ i + 2 * ps.length ≤ len ∧
      bytesJoin ps = bytesJoin ((v.drop i).take (2 * ps.length)) := by
  intro d
  induction d using Nat.strong_induction_on with
  | _ d ih =>
    intro fuel v i len hd hlen hpar hile hfuel
    by_cases hlt : i < len - 1
    · obtain ⟨f', rfl⟩ : ∃ f', fuel = f' + 1 := ⟨fuel - 1, by omega⟩
      have hi1 : i + 1 < v.length := by omega
      have hi0 : i < v.length := by omega
      have hw : i / 2 < v.length := by omega
      unfold node.collapse_pairs
      rw [if_pos hlt, vget_eq hi0, vget_eq hi1]
      simp only
      rw [vset_eq _ hw]
      simp only
      set c := node.concat2 (v.get ⟨i, hi0⟩) (v.get ⟨i + 1, hi1⟩)
      have hset : v.set (i / 2) c =
          v.take (i / 2) ++ c :: v.drop (i / 2 + 1) := by
        rw [List.set_eq_take_append_cons_drop, if_pos hw]
      obtain ⟨ps', hrun, hlb, hub, hjoin⟩ := ih (len - (i + 2))
        (by omega) f' (v.set (i / 2) c) (i + 2) len (by rfl)
        (by simp [hlen]) (by omega) (by omega) (by omega)
      refine ⟨c :: ps', ?_, by simp only [List.length_cons]; omega,
        by simp only [List.length_cons]; omega, ?_⟩
      · rw [hrun]
        have ht : (v.set (i / 2) c).take ((i + 2) / 2) =
            v.take (i / 2) ++ [c] := by
          rw [hset]
          have h2 : (i + 2) / 2 = i / 2 + 1 := by omega
          rw [h2, List.take_append_eq_append_take]
          have hlt1 : (v.take (i / 2)).length = i / 2 := by
            rw [List.length_take]
            omega
          rw [List.take_of_length_le (by rw [hlt1]; omega), hlt1]
          have : i / 2 + 1 - i / 2 = 1 := by omega
          rw [this]
          rfl
        have hdset : ∀ m : Nat, i / 2 < m →
            (v.set (i / 2) c).drop m = v.drop m := fun m hm =>
          List.drop_set_of_lt c v hm
        rw [ht, hdset ((i + 2) / 2 + ps'.length) (by omega)]
        have harr : (i + 2) / 2 + ps'.length = i / 2 + (c :: ps').length := by
          simp only [List.length_cons]
          omega
        rw [harr]
        have hpos : i + 2 + 2 * ps'.length = i + 2 * (c :: ps').length := by
          simp only [List.length_cons]
          omega
        rw [hpos]
        simp only [List.append_assoc, List.cons_append, List.nil_append]
      · have hdrop2 : (v.set (i / 2) c).drop (i + 2) = v.drop (i + 2) :=
          List.drop_set_of_lt c v (by omega)
        rw [hdrop2] at hjoin
        have hvi : v.drop i = v.get ⟨i, hi0⟩ :: v.get ⟨i + 1, hi1⟩ ::
            v.drop (i + 2) := by
          rw [List.drop_eq_get_cons hi0]
          congr 1
          rw [List.drop_eq_get_cons hi1]
        rw [bytesJoin_cons, hjoin, hvi]
        have h2l : 2 * (c :: ps').length = 2 * ps'.length + 1 + 1 := by
          simp only [List.length_cons]
          omega
        rw [h2l, List.take_succ_cons, List.take_succ_cons]
        rw [bytesJoin_cons, bytesJoin_cons]
        show nodeBytes c ++ _ = _
        rw [nodeBytes_concat2]
        rw [List.append_assoc]
    · refine ⟨[], ?_, by simp only [List.length_nil]; omega,
        by simp only [List.length_nil]; omega, by simp [bytesJoin_nil]⟩
      unfold node.collapse_pairs
      rw [if_neg hlt]
      simp only [List.length_nil, Nat.add_zero, List.append_nil,
        Nat.mul_zero]
      rw [List.take_append_drop]


theorem collapse_round_spec (v : List Node) (len : Nat) (h2 : 2 ≤ len)
    (hlen : len ≤ v.length) :
    ∃ v', node.collapse_round v len = some v' ∧ v'.length = v.length ∧
      bytesJoin (v'.take (node.div_ceil len 2)) =
        bytesJoin (v.take len) := by
  obtain ⟨ps, hrun, hlb, hub, hjoin⟩ := collapse_pairs_spec len len v 0 len
    (by omega) hlen (by omega) (by omega) (by omega)
  simp only [Nat.zero_div, List.take_zero, List.nil_append, Nat.zero_add,
    List.drop_zero] at hrun hjoin
  unfold node.collapse_round
  rw [hrun]
  simp only
  have hpslen : ps.length ≤ v.length := by omega
  have htk : (ps ++ v.drop ps.length).take ps.length = ps := by
    rw [List.take_append_eq_append_take, List.take_of_length_le
      (Nat.le_refl _), Nat.sub_self, List.take_zero, List.append_nil]
  have hvlen : (ps ++ v.drop ps.length).length = v.length := by
    simp only [List.length_append, List.length_drop]
    omega
  by_cases hodd : 2 * ps.length = len - 1
  · rw [if_pos hodd]
    have hlt : 2 * ps.length < v.length := by omega
    have hget : node.vget (ps ++ v.drop ps.length) (2 * ps.length) =
        some (v.get ⟨2 * ps.length, hlt⟩) := by
      unfold node.vget
      rw [List.get?_eq_getElem?, List.getElem?_append_right (by omega),
        List.getElem?_drop]
      have harg : ps.length + (2 * ps.length - ps.length) =
          2 * ps.length := by
        omega
      rw [harg, ← List.get?_eq_getElem?, List.get?_eq_get hlt]
    rw [hget]
    simp only
    have hp2 : 2 * ps.length / 2 = ps.length := by omega
    rw [vset_eq _ (by rw [hvlen]; omega)]
    refine ⟨_, rfl, by simp only [List.length_set]; rw [hvlen], ?_⟩
    have hps2 : ps.length < (ps ++ v.drop ps.length).length := by
      rw [hvlen]
      omega
    have hdiv : node.div_ceil len 2 = ps.length + 1 := by
      unfold node.div_ceil
      split <;> omega
    have hset2 : ((ps ++ v.drop ps.length).set
        (2 * ps.length / 2) (v.get ⟨2 * ps.length, hlt⟩)).take
          (ps.length + 1) = ps ++ [v.get ⟨2 * ps.length, hlt⟩] := by
      rw [hp2, List.set_eq_take_append_cons_drop, if_pos hps2, htk]
      rw [List.take_append_eq_append_take, List.take_of_length_le
        (by omega)]
      have hm : ps.length + 1 - ps.length = 1 := by omega
      rw [hm, List.take_succ_cons, List.take_zero]
    rw [hdiv, hset2, bytesJoin_append, hjoin]
    have hlast : v.take len = v.take (2 * ps.length) ++
        [v.get ⟨2 * ps.length, hlt⟩] := by
      have hlen' : len = 2 * ps.length + 1 := by omega
      rw [hlen', List.take_succ]
      simp [List.getElem?_eq_getElem hlt, List.get_eq_getElem]
    rw [hlast, bytesJoin_append]
  · have heven : 2 * ps.length = len := by omega
    rw [if_neg hodd]
    refine ⟨_, rfl, hvlen, ?_⟩
    have hdiv : node.div_ceil len 2 = ps.length := by
      unfold node.div_ceil
      split <;> omega
    rw [hdiv, htk, hjoin, heven]

theorem collapse_go_spec : ∀ (len : Nat) (fuel : Nat) (v : List Node),
    1 ≤ len → len ≤ v.length → len ≤ fuel →
    ∃ nd, node.collapse_go fuel v len = some nd ∧
      nodeBytes nd = bytesJoin (v.take len) := by
  intro len
  induction len using Nat.strong_induction_on with
  | _ len ih =>
    intro fuel v h1 hlen hfuel
    by_cases h2 : len > 1
    · obtain ⟨f', rfl⟩ : ∃ f', fuel = f' + 1 := ⟨fuel - 1, by omega⟩
      unfold node.collapse_go
      rw [if_pos h2]
      obtain ⟨v', hround, hvl, hjoin⟩ := collapse_round_spec v len
        (by omega) hlen
      rw [hround]
      simp only
      have hceil1 : 1 ≤ node.div_ceil len 2 := by
        unfold node.div_ceil
        split <;> omega
      have hceil2 : node.div_ceil len 2 < len := by
        unfold node.div_ceil
        split <;> omega
      obtain ⟨nd, hgo, hnd⟩ := ih (node.div_ceil len 2) hceil2 f' v'
        hceil1 (by omega) (by omega)
      exact ⟨nd, hgo, by rw [hnd, hjoin]⟩
    · have hlen1 : len = 1 := by omega
      subst hlen1
      unfold node.collapse_go
      rw [if_neg (by omega)]
      have h0 : 0 < v.length := by omega
      refine ⟨v.get ⟨0, h0⟩, vget_eq h0, ?_⟩
      cases v with
      | nil => simp at h0
      | cons x xs =>
        rw [List.take_one]
        simp only [List.head?_cons, Option.toList_some, List.get]
        rw [bytesJoin_cons, bytesJoin_nil, List.append_nil]


/-!
The chunking loop of `node::of_substr_unsafer` covers its byte range,
and the constructor round-trips (claim C4's machinery).
-/

theorem take_set {α : Type} : ∀ (l : List α) (i : Nat) (x : α),
    (l.set i x).take i = l.take i := by
  intro l
  induction l with
  | nil => intro i x; rfl
  | cons a l ihl =>
    intro i x
    cases i with
    | zero => rfl
    | succ i =>
      simp only [List.set_cons_succ, List.take_succ_cons]
      rw [ihl]

theorem get?_take_lt {α : Type} {l : List α} {m n : Nat} (h : m < n) :
    (l.take n).get? m = l.get? m := by
  rw [List.get?_eq_getElem?, List.get?_eq_getElem?, List.getElem?_take,
    if_pos h]

theorem get?_set_self {α : Type} {l : List α} {i : Nat} (x : α)
    (h : i < l.length) : (l.set i x).get? i = some x := by
  rw [List.get?_eq_getElem?, List.getElem?_set_self',
    List.getElem?_eq_getElem h]
  rfl

theorem nodeBytes_leaf (lf : Leaf) : nodeBytes (Node.leaf lf) = leafBytes lf :=
  rfl

theorem of_substr_chunks_tail : ∀ (m : Nat) {s : List Nat}
    (fuel first leaves j : Nat) (pre rest ccs : List Nat) (v : List Node),
    s = pre ++ rest → str.decode_str rest = some ccs →
    ccs.length = m * node.hint_max_leaf_char_len →
    1 ≤ j → j + m = leaves → leaves = v.length → m ≤ fuel →
    ∃ w : List Node,
      node.of_substr_chunks s fuel first leaves j pre.length v = some w ∧
      w.take j = v.take j ∧ w.length = v.length ∧
      bytesJoin (w.drop j) = rest := by
  intro m
  induction m with
  | zero =>
    intro s fuel first leaves j pre rest ccs v hs hd hcl hj hjm hlv hf
    have hccs : ccs = [] := List.eq_nil_of_length_eq_zero (by omega)
    subst hccs
    have hrest : rest = [] := decode_str_eq_nil hd
    subst hrest
    unfold node.of_substr_chunks
    rw [if_neg (by omega)]
    refine ⟨v, rfl, rfl, rfl, ?_⟩
    rw [List.drop_of_length_le (by omega)]
    rfl
  | succ m ihm =>
    intro s fuel first leaves j pre rest ccs v hs hd hcl hj hjm hlv hf
    obtain ⟨f', rfl⟩ : ∃ f', fuel = f' + 1 := ⟨fuel - 1, by omega⟩
    have hjlt : j < leaves := by omega
    unfold node.of_substr_chunks
    rw [if_pos hjlt]
    simp only
    rw [if_neg (by omega : ¬j = 0)]
    have h256 : node.hint_max_leaf_char_len ≤ ccs.length := by
      unfold node.hint_max_leaf_char_len at hcl ⊢
      omega
    obtain ⟨k, hk, hkle, htake, hdrop⟩ :=
      count_bytes_spec pre hd h256
    rw [← hs] at hk
    rw [hk]
    simp only
    have hjv : j < v.length := by omega
    rw [vset_eq _ hjv]
    simp only
    set lf : Leaf := ⟨pre.length, k, node.hint_max_leaf_char_len, s⟩
    have hpre' : (pre ++ rest.take k).length = pre.length + k := by
      simp only [List.length_append, List.length_take]
      omega
    obtain ⟨w, hrun, hwtake, hwlen, hwbytes⟩ := ihm (s := s) f' first leaves
      (j + 1)
      (pre ++ rest.take k) (rest.drop k) (ccs.drop node.hint_max_leaf_char_len)
      (v.set j (Node.leaf lf))
      (by rw [hs, List.append_assoc, List.take_append_drop])
      hdrop
      (by
        simp only [List.length_drop]
        unfold node.hint_max_leaf_char_len at hcl ⊢
        omega)
      (by omega) (by omega)
      (by simp only [List.length_set]; omega)
      (by omega)
    rw [hpre'] at hrun
    refine ⟨w, hrun, ?_, by simp only [List.length_set] at hwlen; omega, ?_⟩
    · have h1 : w.take j = (w.take (j + 1)).take j := by
        rw [List.take_take]
        congr 1
        omega
      rw [h1, hwtake]
      rw [show ((v.set j (Node.leaf lf)).take (j + 1)).take j =
        (v.set j (Node.leaf lf)).take j from by
          rw [List.take_take]
          congr 1
          omega]
      exact take_set v j (Node.leaf lf)
    · have hjw : j < w.length := by
        simp only [List.length_set] at hwlen
        omega
      have hwget : w.get? j = some (Node.leaf lf) := by
        have h1 : (w.take (j + 1)).get? j = w.get? j :=
          get?_take_lt (by omega)
        have h2 : ((v.set j (Node.leaf lf)).take (j + 1)).get? j =
            (v.set j (Node.leaf lf)).get? j := get?_take_lt (by omega)
        rw [← h1, hwtake, h2]
        exact get?_set_self _ hjv
      have hwdrop : w.drop j = Node.leaf lf :: w.drop (j + 1) := by
        rw [List.drop_eq_get_cons hjw]
        congr 1
        have := List.get?_eq_get hjw
        rw [hwget] at this
        exact (Option.some.injEq _ _ ▸ this.symm)
      rw [hwdrop, bytesJoin_cons, hwbytes, nodeBytes_leaf]
      show (s.drop pre.length).take k ++ rest.drop k = rest
      rw [hs, List.drop_left, List.take_append_drop]


theorem of_substr_unsafer_bytes {s cs : List Nat}
    (h : str.decode_str s = some cs) :
    ∃ nd, node.of_substr_unsafer s 0 s.length cs.length = some nd ∧
      nodeBytes nd = s := by
  unfold node.of_substr_unsafer
  rw [if_pos (by unfold str.len; omega)]
  by_cases hsmall : cs.length ≤ node.hint_max_leaf_char_len
  · rw [if_pos hsmall]
    refine ⟨_, rfl, ?_⟩
    rw [nodeBytes_leaf]
    show (s.drop 0).take s.length = s
    rw [List.drop_zero, List.take_length]
  · rw [if_neg hsmall]
    simp only
    unfold node.hint_max_leaf_char_len at hsmall ⊢
    set leaves := node.div_ceil cs.length 256 with hleaves
    set first := if cs.length % 256 = 0 then 256 else cs.length % 256
      with hfirst
    have hdc : leaves = cs.length / 256 + (if cs.length % 256 = 0 then 0
        else 1) := by
      rw [hleaves]
      unfold node.div_ceil
      rfl
    have hl2 : 2 ≤ leaves := by
      rw [hdc]
      split <;> omega
    have hfirst1 : 1 ≤ first := by
      rw [hfirst]
      split <;> omega
    have hfirstle : first ≤ cs.length := by
      rw [hfirst]
      split <;> omega
    have hsum : first + (leaves - 1) * 256 = cs.length := by
      rw [hdc, hfirst]
      split <;> omega
    obtain ⟨l', hl'⟩ : ∃ l', leaves = l' + 1 := ⟨leaves - 1, by omega⟩
    rw [hl']
    unfold node.of_substr_chunks
    rw [if_pos (by omega)]
    simp only [reduceIte]
    have h0 := count_bytes_spec (s := s) [] h (by omega : first ≤ cs.length)
    simp only [List.nil_append, List.length_nil] at h0
    obtain ⟨k0, hk0, hk0le, htake0, hdrop0⟩ := h0
    rw [hk0]
    simp only
    rw [vset_eq _ (by rw [List.length_replicate]; omega)]
    simp only
    have hpre : (s.take k0).length = k0 := by
      rw [List.length_take]
      omega
    obtain ⟨w, hrun, hwtake, hwlen, hwb⟩ := of_substr_chunks_tail l'
      (s := s) l' first (l' + 1) 1 (s.take k0) (s.drop k0)
      (cs.drop first)
      ((List.replicate (l' + 1)
        (Node.leaf ⟨0, s.length, cs.length, s⟩)).set 0
          (Node.leaf ⟨0, k0, first, s⟩))
      (by rw [List.take_append_drop])
      hdrop0
      (by
        simp only [List.length_drop]
        unfold node.hint_max_leaf_char_len
        omega)
      (by omega) (by omega)
      (by simp only [List.length_set, List.length_replicate])
      (by omega)
    rw [hpre] at hrun
    rw [show (0 : Nat) + k0 = k0 from by omega, hrun]
    have hwl : w.length = l' + 1 := by
      rw [hwlen, List.length_set, List.length_replicate]
    unfold node.collapse_loop
    obtain ⟨nd, hgo, hnd⟩ := collapse_go_spec (l' + 1) (l' + 1) w
      (by omega) (by omega) (by omega)
    refine ⟨nd, hgo, ?_⟩
    rw [hnd]
    have hw' : w.take (l' + 1) = w := by
      rw [← hwl, List.take_length]
    rw [hw']
    have hsplit : w = w.take 1 ++ w.drop 1 := (List.take_append_drop 1 w).symm
    have htk1 : w.take 1 = [Node.leaf ⟨0, k0, first, s⟩] := by
      rw [hwtake, List.replicate_succ, List.set_cons_zero,
        List.take_succ_cons, List.take_zero]
    calc bytesJoin w = bytesJoin (w.take 1 ++ w.drop 1) := by rw [← hsplit]
    _ = bytesJoin (w.take 1) ++ bytesJoin (w.drop 1) := bytesJoin_append _ _
    _ = s.take k0 ++ s.drop k0 := by
        rw [htk1, hwb, bytesJoin_cons, bytesJoin_nil, List.append_nil]
        rw [nodeBytes_leaf]
        show (s.drop 0).take k0 ++ _ = _
        rw [List.drop_zero]
    _ = s := List.take_append_drop k0 s

theorem of_str_bytes {s cs : List Nat} (h : str.decode_str s = some cs) :
    (rope.of_str s).map rootBytes = some s := by
  unfold rope.of_str rope.of_substr
  by_cases hnil : str.len s = 0
  · rw [if_pos hnil]
    have : s = [] := List.eq_nil_of_length_eq_zero hnil
    subst this
    rfl
  · rw [if_neg hnil, if_neg (by unfold str.len at hnil ⊢; omega)]
    unfold node.of_substr
    rw [show str.count_chars s 0 (str.len s) = some cs.length from
      count_chars_all h]
    obtain ⟨nd, hnd, hbytes⟩ := of_substr_unsafer_bytes h
    unfold str.len
    dsimp only
    rw [hnd]
    simp only [Option.map_some']
    rw [show rootBytes (Root.content nd) = nodeBytes nd from rfl, hbytes]


/-!
Content preservation of the tournament merge in `concat` (claim C8's
machinery).
-/

theorem take_succ_set {α : Type} (l : List α) (i : Nat) (x : α)
    (h : i < l.length) : (l.set i x).take (i + 1) = l.take i ++ [x] := by
  rw [List.set_eq_take_append_cons_drop, if_pos h,
    List.take_append_eq_append_take,
    List.take_of_length_le (by rw [List.length_take]; omega)]
  have hm : i + 1 - (l.take i).length = 1 := by
    rw [List.length_take]
    omega
  rw [hm, List.take_succ_cons, List.take_zero]

theorem rootsJoin_nil : rootsJoin [] = [] := rfl

theorem rootsJoin_cons (r : Root) (l : List Root) :
    rootsJoin (r :: l) = rootBytes r ++ rootsJoin l := by
  unfold rootsJoin
  rw [List.map_cons, List.flatten_cons]

theorem rootsJoin_append (a b : List Root) :
    rootsJoin (a ++ b) = rootsJoin a ++ rootsJoin b := by
  unfold rootsJoin
  rw [List.map_append, List.flatten_append]

theorem rootBytes_append_rope (a b : Root) :
    rootBytes (rope.append_rope a b) = rootBytes a ++ rootBytes b := by
  cases a with
  | empty => rw [show rope.append_rope Root.empty b = b from rfl]; rfl
  | content x =>
    cases b with
    | empty =>
      rw [show rope.append_rope (Root.content x) Root.empty =
        Root.content x from rfl]
      rw [show rootBytes Root.empty = [] from rfl, List.append_nil]
    | content y => rfl

theorem rootBytes_foldl : ∀ (v : List Root) (acc : Root),
    rootBytes (v.foldl rope.append_rope acc) =
      rootBytes acc ++ rootsJoin v := by
  intro v
  induction v with
  | nil => intro acc; rw [List.foldl_nil, rootsJoin_nil, List.append_nil]
  | cons r v ihv =>
    intro acc
    rw [List.foldl_cons, ihv, rootBytes_append_rope, rootsJoin_cons,
      List.append_assoc]

theorem concat_copy_spec : ∀ (fuel : Nat) (v w : List Root) (i : Nat),
    w.length = v.length → w.take i = v.take i → v.length - i ≤ fuel →
    rope.concat_copy fuel v w i v.length = some v := by
  intro fuel
  induction fuel with
  | zero =>
    intro v w i hlen htake hfuel
    unfold rope.concat_copy
    rw [if_neg (by omega)]
    congr 1
    rw [← List.take_of_length_le (show w.length ≤ i by omega), htake,
      List.take_of_length_le (by omega)]
  | succ f ihf =>
    intro v w i hlen htake hfuel
    by_cases hi : i < v.length
    · unfold rope.concat_copy
      rw [if_pos hi]
      simp only
      rw [vget_eq hi]
      simp only [Option.bind_eq_bind, Option.some_bind]
      rw [vset_eq _ (by omega)]
      simp only [Option.bind_eq_bind, Option.some_bind]
      refine ihf v _ (i + 1) (by rw [List.length_set]; omega) ?_ (by omega)
      rw [take_succ_set _ _ _ (by omega), htake, List.take_succ,
        List.getElem?_eq_getElem hi]
      rfl
    · unfold rope.concat_copy
      rw [if_neg hi]
      congr 1
      rw [← List.take_of_length_le (show w.length ≤ i by omega), htake,
        List.take_of_length_le (by omega)]

theorem concat_merge_spec : ∀ (m fuel : Nat) (orig ps : List Root)
    (i half : Nat), half - i = m → ps.length = i → i ≤ half →
    2 * half ≤ orig.length → m ≤ fuel →
    ∃ qs : List Root,
      rope.concat_merge fuel (ps ++ orig.drop i) i half =
        some ((ps ++ qs) ++ orig.drop half) ∧
      qs.length = half - i ∧
      rootsJoin qs = rootsJoin ((orig.take (2 * half)).drop (2 * i)) := by
  intro m
  induction m with
  | zero =>
    intro fuel orig ps i half hm hps hih h2h hf
    have hih' : i = half := by omega
    subst hih'
    unfold rope.concat_merge
    rw [if_neg (by omega)]
    refine ⟨[], by rw [List.append_nil], by simp, ?_⟩
    rw [rootsJoin_nil, List.drop_of_length_le (by
      rw [List.length_take]
      omega)]
    rfl
  | succ m ihm =>
    intro fuel orig ps i half hm hps hih h2h hf
    have hi : i < half := by omega
    obtain ⟨f', rfl⟩ : ∃ f', fuel = f' + 1 := ⟨fuel - 1, by omega⟩
    have h2i1 : 2 * i + 1 < orig.length := by omega
    have h2i : 2 * i < orig.length := by omega
    have hiorig : i < orig.length := by omega
    have hwl : (ps ++ orig.drop i).length = ps.length +
        (orig.length - i) := by
      simp [List.length_drop]
    unfold rope.concat_merge
    rw [if_pos hi]
    simp only
    have hga : node.vget (ps ++ orig.drop i) (2 * i) =
        some (orig.get ⟨2 * i, h2i⟩) := by
      unfold node.vget
      rw [List.get?_eq_getElem?, List.getElem?_append_right (by omega),
        List.getElem?_drop, hps]
      have harg : i + (2 * i - i) = 2 * i := by omega
      rw [harg, ← List.get?_eq_getElem?, List.get?_eq_get h2i]
    have hgb : node.vget (ps ++ orig.drop i) (2 * i + 1) =
        some (orig.get ⟨2 * i + 1, h2i1⟩) := by
      unfold node.vget
      rw [List.get?_eq_getElem?, List.getElem?_append_right (by omega),
        List.getElem?_drop, hps]
      have harg : i + (2 * i + 1 - i) = 2 * i + 1 := by omega
      rw [harg, ← List.get?_eq_getElem?, List.get?_eq_get h2i1]
    rw [hga]
    simp only [Option.bind_eq_bind, Option.some_bind]
    rw [hgb]
    simp only [Option.bind_eq_bind, Option.some_bind]
    set x := rope.append_rope (orig.get ⟨2 * i, h2i⟩)
      (orig.get ⟨2 * i + 1, h2i1⟩) with hx
    rw [vset_eq _ (by rw [hwl]; omega)]
    simp only [Option.bind_eq_bind, Option.some_bind]
    have hset : (ps ++ orig.drop i).set i x =
        (ps ++ [x]) ++ orig.drop (i + 1) := by
      rw [List.set_append, if_neg (by omega), hps, Nat.sub_self]
      rw [List.drop_eq_get_cons hiorig, List.set_cons_zero]
      simp
    rw [hset]
    obtain ⟨qs', hrun, hqlen, hqjoin⟩ := ihm f' orig (ps ++ [x]) (i + 1)
      half (by omega) (by rw [List.length_append, hps]; rfl) (by omega)
      h2h (by omega)
    rw [hrun]
    refine ⟨x :: qs', by rw [show (ps ++ [x]) ++ qs' = ps ++ x :: qs' from
      by simp], by simp only [List.length_cons]; omega, ?_⟩
    rw [rootsJoin_cons, hqjoin, hx, rootBytes_append_rope]
    have hto : (orig.take (2 * half)).drop (2 * i) =
        orig.get ⟨2 * i, h2i⟩ :: orig.get ⟨2 * i + 1, h2i1⟩ ::
          (orig.take (2 * half)).drop (2 * i + 2) := by
      have ht1 : 2 * i < (orig.take (2 * half)).length := by
        rw [List.length_take]
        omega
      have ht2 : 2 * i + 1 < (orig.take (2 * half)).length := by
        rw [List.length_take]
        omega
      rw [List.drop_eq_get_cons ht1]
      congr 1
      · have hq := get?_take_lt (l := orig) (m := 2 * i) (n := 2 * half)
          (by omega)
        rw [List.get?_eq_get ht1, List.get?_eq_get h2i] at hq
        exact Option.some_injective _ hq
      · rw [List.drop_eq_get_cons ht2]
        congr 1
        have hq := get?_take_lt (l := orig) (m := 2 * i + 1) (n := 2 * half)
          (by omega)
        rw [List.get?_eq_get ht2, List.get?_eq_get h2i1] at hq
        exact Option.some_injective _ hq
    rw [hto, rootsJoin_cons, rootsJoin_cons]
    have harg : 2 * (i + 1) = 2 * i + 2 := by omega
    rw [harg, List.append_assoc]


theorem concat_loop_spec : ∀ (len fuel : Nat) (w : List Root),
    1 ≤ len → len ≤ w.length → len ≤ fuel →
    ∃ c, rope.concat_loop fuel w len = some c ∧
      rootBytes c = rootsJoin (w.take len) := by
  intro len
  induction len using Nat.strong_induction_on with
  | _ len ih =>
    intro fuel w h1 hlen hfuel
    by_cases h2 : len > 1
    · obtain ⟨f, rfl⟩ : ∃ f, fuel = f + 1 := ⟨fuel - 1, by omega⟩
      unfold rope.concat_loop
      rw [if_pos h2]
      simp only
      obtain ⟨qs, hrun, hqlen, hqjoin⟩ := concat_merge_spec (len / 2)
        (len / 2) w [] 0 (len / 2) (by omega) rfl (by omega) (by omega)
        (by omega)
      rw [List.nil_append, List.drop_zero, List.nil_append] at hrun
      rw [Nat.mul_zero, List.drop_zero] at hqjoin
      have hqlen' : qs.length = len / 2 := by omega
      rw [hrun]
      simp only [Option.bind_eq_bind, Option.some_bind]
      have hulen : (qs ++ w.drop (len / 2)).length = w.length := by
        rw [List.length_append, List.length_drop, hqlen']
        omega
      by_cases hodd : len % 2 ≠ 0
      · rw [if_pos hodd]
        have hl3 : 3 ≤ len := by omega
        have hw1 : len - 1 < w.length := by omega
        have hget : node.vget (qs ++ w.drop (len / 2)) (len - 1) =
            some (w.get ⟨len - 1, hw1⟩) := by
          unfold node.vget
          rw [List.get?_eq_getElem?, List.getElem?_append_right (by omega),
            List.getElem?_drop, hqlen']
          have harg : len / 2 + (len - 1 - len / 2) = len - 1 := by omega
          rw [harg, ← List.get?_eq_getElem?, List.get?_eq_get hw1]
        rw [hget]
        simp only [Option.bind_eq_bind, Option.some_bind]
        rw [vset_eq _ (by rw [hulen]; omega)]
        simp only [Option.bind_eq_bind, Option.some_bind]
        set x := w.get ⟨len - 1, hw1⟩ with hx
        have hhw : len / 2 < w.length := by omega
        have hset : (qs ++ w.drop (len / 2)).set (len / 2) x =
            (qs ++ [x]) ++ w.drop (len / 2 + 1) := by
          rw [List.set_append, if_neg (by omega), hqlen', Nat.sub_self]
          rw [List.drop_eq_get_cons hhw, List.set_cons_zero]
          simp
        rw [hset]
        obtain ⟨c, hc, hcb⟩ := ih (len / 2 + 1) (by omega) f
          ((qs ++ [x]) ++ w.drop (len / 2 + 1)) (by omega)
          (by
            rw [List.length_append, List.length_append, List.length_drop,
              hqlen', List.length_singleton]
            omega)
          (by omega)
        refine ⟨c, hc, ?_⟩
        rw [hcb]
        have htk : ((qs ++ [x]) ++ w.drop (len / 2 + 1)).take (len / 2 + 1)
            = qs ++ [x] := by
          apply List.take_left'
          rw [List.length_append, hqlen', List.length_singleton]
        rw [htk, rootsJoin_append, hqjoin]
        have hlen2 : 2 * (len / 2) = len - 1 := by omega
        rw [hlen2]
        have hwl : w.take len = w.take (len - 1) ++ [x] := by
          have hstep : len = (len - 1) + 1 := by omega
          rw [hstep, List.take_succ, List.getElem?_eq_getElem hw1]
          rfl
        rw [hwl, rootsJoin_append]
      · rw [if_neg hodd]
        obtain ⟨c, hc, hcb⟩ := ih (len / 2) (by omega) f
          (qs ++ w.drop (len / 2)) (by omega) (by rw [hulen]; omega)
          (by omega)
        refine ⟨c, hc, ?_⟩
        rw [hcb, List.take_left' hqlen', hqjoin]
        have hlen2 : 2 * (len / 2) = len := by omega
        rw [hlen2]
    · have hl1 : len = 1 := by omega
      subst hl1
      unfold rope.concat_loop
      rw [if_neg (by omega)]
      have h0 : 0 < w.length := by omega
      refine ⟨w.get ⟨0, h0⟩, vget_eq h0, ?_⟩
      cases w with
      | nil => simp at h0
      | cons a t =>
        simp [rootsJoin_cons, rootsJoin_nil]

theorem take_set_le {α : Type} : ∀ (l : List α) (i j : Nat) (x : α),
    j ≤ i → (l.set i x).take j = l.take j := by
  intro l
  induction l with
  | nil => intro i j x _; rfl
  | cons a l ihl =>
    intro i j x h
    cases i with
    | zero =>
      have hj : j = 0 := by omega
      subst hj
      rfl
    | succ i =>
      cases j with
      | zero => rfl
      | succ j =>
        simp only [List.set_cons_succ, List.take_succ_cons]
        rw [ihl i j x (by omega)]

theorem get?_set_ne {α : Type} {l : List α} {i j : Nat} (x : α)
    (h : i ≠ j) : (l.set i x).get? j = l.get? j := by
  rw [List.get?_eq_getElem?, List.get?_eq_getElem?,
    List.getElem?_set_ne h]

theorem height_eq_realHeight : ∀ n : Node, wfHeight n = true →
    node.height n = realHeight n := by
  intro n
  induction n with
  | leaf x => intro _; rfl
  | concat l r cl bl h ihl ihr =>
    intro hwf
    simp only [wfHeight, Bool.and_eq_true, beq_iff_eq] at hwf
    obtain ⟨⟨hl, hr⟩, hh⟩ := hwf
    show h = realHeight (Node.concat l r cl bl h)
    show h = Nat.max (realHeight l) (realHeight r) + 1
    rw [hh, ihl hl, ihr hr]

theorem next_loop_spec : ∀ (cur : Node) (stack : List Node) (p : Nat),
    wfHeight cur = true →
    realHeight cur + p < stack.length →
    ∃ (lf : Leaf) (rights : List Node) (st' : List Node),
      leaf_iterator.next_loop cur stack p =
        some (some lf, ⟨st', (p : Int) + rights.length - 1⟩) ∧
      st'.length = stack.length ∧
      st'.take p = stack.take p ∧
      leavesOf cur = lf :: ((rights.map leavesOf).reverse).flatten ∧
      rights.length ≤ realHeight cur ∧
      ∀ j (hj : j < rights.length),
        st'.get? (p + j) = some (rights.get ⟨j, hj⟩) ∧
        wfHeight (rights.get ⟨j, hj⟩) = true ∧
        realHeight (rights.get ⟨j, hj⟩) + j + 1 ≤ realHeight cur := by
  intro cur
  induction cur with
  | leaf x =>
    intro stack p _ _
    refine ⟨x, [], stack, ?_, rfl, rfl, rfl, by simp [realHeight], ?_⟩
    · unfold leaf_iterator.next_loop
      simp
    · intro j hj
      simp at hj
  | concat l r cl bl h ihl ihr =>
    intro stack p hwf hh
    simp only [wfHeight, Bool.and_eq_true, beq_iff_eq] at hwf
    obtain ⟨⟨hwl, hwr⟩, hhh⟩ := hwf
    have hrc : realHeight (Node.concat l r cl bl h) =
        Nat.max (realHeight l) (realHeight r) + 1 := rfl
    rw [hrc] at hh
    have hmaxl : realHeight l ≤ Nat.max (realHeight l) (realHeight r) :=
      Nat.le_max_left _ _
    have hmaxr : realHeight r ≤ Nat.max (realHeight l) (realHeight r) :=
      Nat.le_max_right _ _
    have hp1 : p + 1 < stack.length := by omega
    have hbl : realHeight l + (p + 1) <
        ((stack.set p r).set (p + 1) l).length := by
      simp only [List.length_set]
      omega
    obtain ⟨lf, rights, st', hrun, hlen, htake, hleaves, hrlen, hrts⟩ :=
      ihl ((stack.set p r).set (p + 1) l) (p + 1) hwl hbl
    refine ⟨lf, r :: rights, st', ?_, ?_, ?_, ?_, ?_, ?_⟩
    · unfold leaf_iterator.next_loop
      rw [if_pos hp1]
      have hcast : (p : Int) + ((r :: rights).length : Int) - 1 =
          ((p + 1 : Nat) : Int) + ((rights.length : Nat) : Int) - 1 := by
        simp only [List.length_cons]
        push_cast
        ring
      rw [hcast]
      exact hrun
    · rw [hlen]
      simp only [List.length_set]
    · have h1 : st'.take p = (st'.take (p + 1)).take p := by
        rw [List.take_take, Nat.min_eq_left (by omega)]
      rw [h1, htake, List.take_take, Nat.min_eq_left (by omega),
        take_set_le _ _ _ _ (by omega), take_set_le _ _ _ _ (by omega)]
    · show leavesOf l ++ leavesOf r = _
      rw [hleaves]
      simp only [List.map_cons, List.reverse_cons, List.flatten_append,
        List.flatten_cons, List.flatten_nil, List.append_nil,
        List.cons_append]
    · rw [hrc]
      simp only [List.length_cons]
      omega
    · intro j hj
      cases j with
      | zero =>
        refine ⟨?_, hwr, ?_⟩
        · have hg : st'.get? p = ((stack.set p r).set (p + 1) l).get? p := by
            have h1 : st'.get? p = (st'.take (p + 1)).get? p :=
              (get?_take_lt (by omega)).symm
            rw [h1, htake, get?_take_lt (by omega)]
          rw [Nat.add_zero, hg, get?_set_ne _ (by omega),
            get?_set_self _ (by omega)]
          rfl
        · show realHeight r + 0 + 1 ≤ realHeight (Node.concat l r cl bl h)
          rw [hrc]
          omega
      | succ j' =>
        have hj' : j' < rights.length := by
          simp only [List.length_cons] at hj
          omega
        obtain ⟨hg, hw, hb⟩ := hrts j' hj'
        have harg : p + (j' + 1) = (p + 1) + j' := by omega
        refine ⟨?_, ?_, ?_⟩
        · rw [harg, hg]
          rfl
        · exact hw
        · show realHeight (rights.get ⟨j', hj'⟩) + (j' + 1) + 1 ≤
            realHeight (Node.concat l r cl bl h)
          rw [hrc]
          omega

theorem runLeaves_spec : ∀ (fuel : Nat) (st : List Node) (spi : Int),
    spi < (st.length : Int) →
    (∀ (j : Nat) (n : Node), (j : Int) ≤ spi → st.get? j = some n →
      wfHeight n = true ∧ realHeight n + j < st.length) →
    (pendingLeaves st spi).length + 1 ≤ fuel →
    runLeaves fuel ⟨st, spi⟩ = some (pendingLeaves st spi) := by
  intro fuel
  induction fuel with
  | zero =>
    intro st spi _ _ hfe
    omega
  | succ f ihf =>
    intro st spi hsp hinv hfe
    by_cases hneg : spi < 0
    · have hnext : leaf_iterator.next ⟨st, spi⟩ = some (none, ⟨st, spi⟩) := by
        unfold leaf_iterator.next
        rw [if_pos hneg]
      unfold runLeaves
      rw [hnext]
      unfold pendingLeaves
      rw [if_pos hneg]
    · obtain ⟨sp, rfl⟩ : ∃ sp : Nat, spi = (sp : Int) :=
        ⟨spi.toNat, by omega⟩
      have hsp' : sp < st.length := by exact_mod_cast hsp
      have hget : st.get? sp = some (st.get ⟨sp, hsp'⟩) :=
        List.get?_eq_get hsp'
      set cur := st.get ⟨sp, hsp'⟩ with hcur
      obtain ⟨hwfc, hrhc⟩ := hinv sp cur (by omega) hget
      obtain ⟨lf, rights, st', hrun, hlen, htake, hleaves, hrlen, hrts⟩ :=
        next_loop_spec cur st sp hwfc (by omega)
      have hnext : leaf_iterator.next ⟨st, (sp : Int)⟩ =
          some (some lf, ⟨st', (sp : Int) + (rights.length : Int) - 1⟩) := by
        unfold leaf_iterator.next
        dsimp only
        rw [if_neg (by omega)]
        rw [Int.toNat_natCast]
        unfold node.vget
        rw [hget]
        exact hrun
      have hl1 : st.take (sp + 1) = st.take sp ++ [cur] := by
        rw [List.take_succ, ← List.get?_eq_getElem?, hget]
        rfl
      have hpendL : pendingLeaves st (sp : Int) =
          leavesOf cur ++ ((st.take sp).map leavesOf).reverse.flatten := by
        unfold pendingLeaves
        rw [if_neg (by omega), Int.toNat_natCast, hl1]
        simp only [List.map_append, List.map_cons, List.map_nil,
          List.reverse_append, List.reverse_cons, List.reverse_nil,
          List.nil_append, List.cons_append, List.flatten_cons]
      have hkey : pendingLeaves st (sp : Int) =
          lf :: pendingLeaves st' ((sp : Int) + (rights.length : Int) - 1) := by
        rw [hpendL, hleaves]
        by_cases hend : (sp : Int) + (rights.length : Int) - 1 < 0
        · have hsp0 : sp = 0 := by omega
          have hr0 : rights = [] := List.length_eq_zero.mp (by omega)
          subst hr0
          subst hsp0
          unfold pendingLeaves
          rw [if_pos hend]
          simp
        · unfold pendingLeaves
          rw [if_neg hend]
          have htn : ((sp : Int) + (rights.length : Int) - 1).toNat + 1 =
              sp + rights.length := by omega
          rw [htn]
          have htk : st'.take (sp + rights.length) = st.take sp ++ rights := by
            apply List.ext_get?
            intro m
            by_cases hm1 : m < sp
            · have h1 : st'.get? m = (st'.take sp).get? m :=
                (get?_take_lt hm1).symm
              rw [get?_take_lt (by omega), h1, htake, get?_take_lt hm1,
                List.get?_eq_getElem?, List.get?_eq_getElem?,
                List.getElem?_append_left
                  (by rw [List.length_take]; omega),
                List.getElem?_take, if_pos hm1]
            · by_cases hm2 : m < sp + rights.length
              · obtain ⟨hgm, _, _⟩ := hrts (m - sp) (by omega)
                have harg : sp + (m - sp) = m := by omega
                rw [harg] at hgm
                rw [get?_take_lt hm2, hgm, List.get?_eq_getElem?,
                  List.getElem?_append_right
                    (by rw [List.length_take]; omega),
                  List.length_take, Nat.min_eq_left (by omega),
                  ← List.get?_eq_getElem?,
                  List.get?_eq_get (show m - sp < rights.length by omega)]
              · rw [List.get?_eq_none.mpr
                  (le_trans (List.length_take_le _ _) (by omega)),
                  List.get?_eq_none.mpr (by
                    rw [List.length_append, List.length_take,
                      Nat.min_eq_left (by omega)]
                    omega)]
          rw [htk]
          simp only [List.map_append, List.reverse_append,
            List.flatten_append, List.cons_append, List.append_assoc]
      have hfe' : (pendingLeaves st'
          ((sp : Int) + (rights.length : Int) - 1)).length + 1 ≤ f := by
        rw [hkey] at hfe
        simp only [List.length_cons] at hfe
        omega
      have hrec : runLeaves f ⟨st', (sp : Int) + (rights.length : Int) - 1⟩ =
          some (pendingLeaves st' ((sp : Int) + (rights.length : Int) - 1)) := by
        apply ihf st' ((sp : Int) + (rights.length : Int) - 1) (by omega)
          ?_ hfe'
        intro j n hj hg
        by_cases hlt : j < sp
        · have hgj : st'.get? j = st.get? j := by
            have h1 : st'.get? j = (st'.take sp).get? j :=
              (get?_take_lt hlt).symm
            rw [h1, htake, get?_take_lt hlt]
          rw [hgj] at hg
          obtain ⟨hw, hb⟩ := hinv j n (by omega) hg
          exact ⟨hw, by omega⟩
        · have hd1 : j - sp < rights.length := by omega
          obtain ⟨hgj, hwj, hbj⟩ := hrts (j - sp) hd1
          have harg : sp + (j - sp) = j := by omega
          rw [harg] at hgj
          rw [hgj] at hg
          have hn : n = rights.get ⟨j - sp, hd1⟩ := (Option.some.inj hg).symm
          subst hn
          exact ⟨hwj, by omega⟩
      unfold runLeaves
      rw [hnext]
      dsimp only
      rw [hrec]
      rw [hkey]

theorem runLeaves_start (n : Node) (fuel : Nat)
    (hwf : wfHeight n = true) (hfe : leafCount n + 1 ≤ fuel) :
    runLeaves fuel (leaf_iterator.start n) = some (leavesOf n) := by
  have hstart : leaf_iterator.start n =
      ⟨List.replicate (node.height n + 1) n, (0 : Int)⟩ := rfl
  have hlen : (List.replicate (node.height n + 1) n).length =
      node.height n + 1 := List.length_replicate _ _
  have hpend : pendingLeaves (List.replicate (node.height n + 1) n) 0 =
      leavesOf n := by
    unfold pendingLeaves
    rw [if_neg (by omega)]
    have h1 : ((0 : Int).toNat + 1) = 1 := rfl
    rw [h1, List.take_replicate]
    have h2 : 1 ⊓ (node.height n + 1) = 1 := by omega
    rw [h2]
    simp
  rw [hstart, ← hpend]
  apply runLeaves_spec
  · rw [hlen]
    omega
  · intro j m hj hg
    have hj0 : j = 0 := by omega
    subst hj0
    have hg0 : (List.replicate (node.height n + 1) n).get? 0 = some n := by
      rw [List.replicate_succ]
      rfl
    rw [hg0] at hg
    have hm : m = n := (Option.some.inj hg).symm
    rw [hm]
    refine ⟨hwf, ?_⟩
    rw [hlen, height_eq_realHeight n hwf]
    omega
  · rw [hpend]
    exact hfe

theorem decode_str_nil : str.decode_str [] = some [] := rfl

theorem wfLeaf_parts {x : Leaf} (h : wfLeaf x = true) :
    x.byte_offset + x.byte_len ≤ x.content.length ∧ 0 < x.byte_len ∧
      (str.decode_str (leafBytes x)).map List.length = some x.char_len := by
  unfold wfLeaf at h
  simp only [Bool.and_eq_true, decide_eq_true_eq, beq_iff_eq] at h
  exact ⟨h.1.1, h.1.2, h.2⟩

theorem leafBytes_length {x : Leaf} (h : wfLeaf x = true) :
    (leafBytes x).length = x.byte_len := by
  obtain ⟨h1, h2, _⟩ := wfLeaf_parts h
  unfold leafBytes
  rw [List.length_take, List.length_drop]
  omega

theorem wfLeaf_decode {x : Leaf} (h : wfLeaf x = true) :
    ∃ cs, str.decode_str (leafBytes x) = some cs ∧ cs ≠ [] := by
  obtain ⟨h1, h2, h3⟩ := wfLeaf_parts h
  cases hd : str.decode_str (leafBytes x) with
  | none => rw [hd] at h3; exact absurd h3 (by simp)
  | some cs =>
    refine ⟨cs, rfl, ?_⟩
    intro hnil
    subst hnil
    have hz := decode_str_eq_nil hd
    have hlen := leafBytes_length h
    rw [hz] at hlen
    simp only [List.length_nil] at hlen
    omega

theorem exhausted_pos {lf : Leaf} {pos : Nat} (hwf : wfLeaf lf = true)
    (hdec : str.decode_str ((leafBytes lf).drop pos) = some []) :
    lf.byte_len ≤ pos := by
  have h0 : (leafBytes lf).drop pos = [] := decode_str_eq_nil hdec
  by_contra hlt
  push_neg at hlt
  have h1 := congrArg List.length h0
  rw [List.length_drop, leafBytes_length hwf] at h1
  simp only [List.length_nil] at h1
  omega

theorem runLeaves_inv_cons {f : Nat} {it : LeafIterState} {l : Leaf}
    {ls : List Leaf} (h : runLeaves (f + 1) it = some (l :: ls)) :
    ∃ it', leaf_iterator.next it = some (some l, it') ∧
      runLeaves f it' = some ls := by
  unfold runLeaves at h
  cases hn : leaf_iterator.next it with
  | none =>
    rw [hn] at h
    exact absurd h (by simp)
  | some p =>
    rw [hn] at h
    obtain ⟨ol, it'⟩ := p
    cases ol with
    | none =>
      dsimp only at h
      exact absurd h (by simp)
    | some l0 =>
      dsimp only at h
      cases hr : runLeaves f it' with
      | none =>
        rw [hr] at h
        exact absurd h (by simp)
      | some ls0 =>
        rw [hr] at h
        dsimp only at h
        simp only [Option.some.injEq, List.cons.injEq] at h
        obtain ⟨rfl, rfl⟩ := h
        exact ⟨it', rfl, hr⟩

theorem runLeaves_inv_nil {f : Nat} {it : LeafIterState}
    (h : runLeaves (f + 1) it = some []) :
    ∃ it0, leaf_iterator.next it = some (none, it0) := by
  unfold runLeaves at h
  cases hn : leaf_iterator.next it with
  | none =>
    rw [hn] at h
    exact absurd h (by simp)
  | some p =>
    rw [hn] at h
    obtain ⟨ol, it'⟩ := p
    cases ol with
    | none => exact ⟨it', rfl⟩
    | some l0 =>
      dsimp only at h
      cases hr : runLeaves f it' with
      | none =>
        rw [hr] at h
        exact absurd h (by simp)
      | some ls0 =>
        rw [hr] at h
        dsimp only at h
        simp at h

theorem leaf_char_step {lf : Leaf} {pos c : Nat} {rest : List Nat}
    (hwf : wfLeaf lf = true)
    (hdec : str.decode_str ((leafBytes lf).drop pos) = some (c :: rest)) :
    ∃ w : Nat, 0 < w ∧ pos + w ≤ lf.byte_len ∧
      str.char_range_at lf.content (pos + lf.byte_offset) =
        some (c, pos + lf.byte_offset + w) ∧
      str.decode_str ((leafBytes lf).drop (pos + w)) = some rest := by
  obtain ⟨hb, hbl, _⟩ := wfLeaf_parts hwf
  have hsne : (leafBytes lf).drop pos ≠ [] := by
    intro hnil
    rw [hnil, decode_str_nil] at hdec
    exact absurd (Option.some.inj hdec) (by simp)
  have hpos : pos < (leafBytes lf).length := by
    by_contra hge
    push_neg at hge
    exact hsne (List.drop_eq_nil_of_le hge)
  have hlen : (leafBytes lf).length = lf.byte_len := leafBytes_length hwf
  have hslice : (leafBytes lf).drop pos =
      (lf.content.drop (lf.byte_offset + pos)).take (lf.byte_len - pos) := by
    unfold leafBytes
    rw [List.drop_take, List.drop_drop]
  have hsplit : lf.content.drop (lf.byte_offset + pos) =
      (leafBytes lf).drop pos ++
        lf.content.drop (lf.byte_offset + lf.byte_len) := by
    rw [hslice]
    have h2 : lf.content.drop (lf.byte_offset + lf.byte_len) =
        (lf.content.drop (lf.byte_offset + pos)).drop
          (lf.byte_len - pos) := by
      rw [List.drop_drop]
      congr 1
      omega
    rw [h2, List.take_append_drop]
  have hcontent : lf.content =
      lf.content.take (lf.byte_offset + pos) ++
        ((leafBytes lf).drop pos ++
          lf.content.drop (lf.byte_offset + lf.byte_len)) := by
    rw [← hsplit, List.take_append_drop]
  obtain ⟨cn, cs', hc0, hd', heq, hw0, hwle⟩ := decode_str_cons_elim hdec hsne
  have hc1 : cn.1 = c := ((List.cons.inj heq).1).symm
  have hc2 : cs' = rest := ((List.cons.inj heq).2).symm
  refine ⟨cn.2, hw0, ?_, ?_, ?_⟩
  · rw [List.length_drop, hlen] at hwle
    omega
  · have hext := char_range_at_extend
      (lf.content.drop (lf.byte_offset + lf.byte_len)) hc0
    have hshift := char_range_at_shift
      (lf.content.take (lf.byte_offset + pos))
      ((leafBytes lf).drop pos ++
        lf.content.drop (lf.byte_offset + lf.byte_len)) 0
    rw [hext] at hshift
    simp only [Option.map_some'] at hshift
    rw [← hcontent] at hshift
    have htl : (lf.content.take (lf.byte_offset + pos)).length =
        lf.byte_offset + pos := by
      rw [List.length_take]
      omega
    rw [htl, Nat.add_zero] at hshift
    rw [show lf.byte_offset + pos = pos + lf.byte_offset from
      Nat.add_comm _ _] at hshift
    rw [hc1] at hshift
    exact hshift
  · rw [← List.drop_drop]
    rw [hc2] at hd'
    exact hd'

theorem next_exhaust {li it0 : LeafIterState} {pos cf : Nat}
    (hn : leaf_iterator.next li = some (none, it0)) (hcf : 1 ≤ cf) :
    char_iterator.next cf ⟨li, none, pos⟩ =
      some (none, ⟨it0, none, pos⟩) := by
  obtain ⟨g, rfl⟩ : ∃ g, cf = g + 1 := ⟨cf - 1, by omega⟩
  have hgc : char_iterator.get_current_or_next_leaf ⟨li, none, pos⟩ =
      some (none, ⟨it0, none, pos⟩) := by
    unfold char_iterator.get_current_or_next_leaf
    dsimp only
    rw [hn]
  unfold char_iterator.next
  rw [hgc]

theorem next_in_leaf {li : LeafIterState} {lf : Leaf} {pos c : Nat}
    {rest : List Nat} {cf : Nat} (hwf : wfLeaf lf = true)
    (hdec : str.decode_str ((leafBytes lf).drop pos) = some (c :: rest))
    (hcf : 1 ≤ cf) :
    ∃ w, 0 < w ∧ pos + w ≤ lf.byte_len ∧
      char_iterator.next cf ⟨li, some lf, pos⟩ =
        some (some c, ⟨li, some lf, pos + w⟩) ∧
      str.decode_str ((leafBytes lf).drop (pos + w)) = some rest := by
  obtain ⟨w, hw0, hwle, hcr, hd⟩ := leaf_char_step hwf hdec
  obtain ⟨g, rfl⟩ : ∃ g, cf = g + 1 := ⟨cf - 1, by omega⟩
  have hpos : pos < lf.byte_len := by
    by_contra hge
    push_neg at hge
    have h0 : (leafBytes lf).drop pos = [] :=
      List.drop_eq_nil_of_le (by rw [leafBytes_length hwf]; omega)
    rw [h0, decode_str_nil] at hdec
    exact absurd (Option.some.inj hdec) (by simp)
  refine ⟨w, hw0, hwle, ?_, hd⟩
  have hgn : char_iterator.get_next_char_in_leaf ⟨li, some lf, pos⟩ =
      some (some c, ⟨li, some lf, pos + w⟩) := by
    unfold char_iterator.get_next_char_in_leaf
    dsimp only
    rw [if_neg (by omega), hcr]
    dsimp only
    rw [show pos + lf.byte_offset + w - lf.byte_offset = pos + w from
      by omega]
  unfold char_iterator.next
  have hgc : char_iterator.get_current_or_next_leaf ⟨li, some lf, pos⟩ =
      some (some lf, ⟨li, some lf, pos⟩) := rfl
  rw [hgc]
  dsimp only
  rw [hgn]

theorem next_pull {li li' : LeafIterState} {lf : Leaf} {pos c : Nat}
    {rest : List Nat} {cf : Nat}
    (hn : leaf_iterator.next li = some (some lf, li'))
    (hwf : wfLeaf lf = true)
    (hdec : str.decode_str (leafBytes lf) = some (c :: rest))
    (hcf : 1 ≤ cf) :
    ∃ w, 0 < w ∧ w ≤ lf.byte_len ∧
      char_iterator.next cf ⟨li, none, pos⟩ =
        some (some c, ⟨li', some lf, w⟩) ∧
      str.decode_str ((leafBytes lf).drop w) = some rest := by
  obtain ⟨w, hw0, hwle, hcr, hd⟩ := @leaf_char_step lf 0 _ _ hwf
    (by rw [List.drop_zero]; exact hdec)
  obtain ⟨g, rfl⟩ : ∃ g, cf = g + 1 := ⟨cf - 1, by omega⟩
  obtain ⟨_, hbl, _⟩ := wfLeaf_parts hwf
  rw [Nat.zero_add] at hwle hd
  refine ⟨w, hw0, hwle, ?_, hd⟩
  have hgc : char_iterator.get_current_or_next_leaf ⟨li, none, pos⟩ =
      some (some lf, ⟨li', some lf, 0⟩) := by
    unfold char_iterator.get_current_or_next_leaf
    dsimp only
    rw [hn]
  have hgn : char_iterator.get_next_char_in_leaf ⟨li', some lf, 0⟩ =
      some (some c, ⟨li', some lf, w⟩) := by
    unfold char_iterator.get_next_char_in_leaf
    dsimp only
    rw [if_neg (by omega), hcr]
    dsimp only
    rw [show 0 + lf.byte_offset + w - lf.byte_offset = w from by omega]
  unfold char_iterator.next
  rw [hgc]
  dsimp only
  rw [hgn]

theorem next_step_exhausted {li : LeafIterState} {lf : Leaf} {pos g : Nat}
    {r : Option (Option Nat × CharIterState)}
    (hge : lf.byte_len ≤ pos)
    (hr : char_iterator.next (g + 1) ⟨li, none, pos⟩ = r) :
    char_iterator.next (g + 1 + 1) ⟨li, some lf, pos⟩ = r := by
  have hgc : char_iterator.get_current_or_next_leaf ⟨li, some lf, pos⟩ =
      some (some lf, ⟨li, some lf, pos⟩) := rfl
  have hgn : char_iterator.get_next_char_in_leaf ⟨li, some lf, pos⟩ =
      some (none, ⟨li, none, pos⟩) := by
    unfold char_iterator.get_next_char_in_leaf
    dsimp only
    rw [if_pos (by omega)]
  unfold char_iterator.next
  rw [hgc]
  dsimp only
  rw [hgn]
  exact hr

theorem forall₂_decode_ne_nil {ls : List Leaf} {css : List (List Nat)}
    (hcss : List.Forall₂
      (fun lf c => str.decode_str (leafBytes lf) = some c) ls css)
    (hwf : ∀ lf ∈ ls, wfLeaf lf = true) :
    ∀ cs ∈ css, cs ≠ [] := by
  induction hcss with
  | nil =>
    intro cs h
    simp at h
  | @cons lf0 cs0 ls' css' h1 h2 ih =>
    intro cs h
    rcases List.mem_cons.mp h with rfl | h3
    · obtain ⟨csx, hdx, hnex⟩ := wfLeaf_decode (hwf lf0 (by simp))
      rw [h1] at hdx
      rw [Option.some.inj hdx]
      exact hnex
    · exact ih (fun x hx => hwf x (by simp [hx])) cs h3

theorem streamInv_next_nil {it : CharIterState} {cfuel : Nat}
    (hinv : StreamInv it []) (hcf : 2 ≤ cfuel) :
    ∃ it', char_iterator.next cfuel it = some (none, it') := by
  obtain ⟨ls, css, csr, hrl, hcss, hwf, hcs, hleaf⟩ := hinv
  obtain ⟨li, lfo, pos⟩ := it
  have hcsr : csr = [] := (List.append_eq_nil.mp hcs.symm).1
  have hfl : css.flatten = [] := (List.append_eq_nil.mp hcs.symm).2
  subst hcsr
  have hcss0 : css = [] := by
    cases hx : css with
    | nil => rfl
    | cons cs0 css' =>
      subst hx
      have hne := forall₂_decode_ne_nil hcss hwf cs0 (by simp)
      rw [List.flatten_cons] at hfl
      exact absurd (List.append_eq_nil.mp hfl).1 hne
  subst hcss0
  have hls0 : ls = [] := by
    cases hcss
    rfl
  subst hls0
  dsimp only at hrl hleaf
  obtain ⟨it0, hn⟩ := runLeaves_inv_nil hrl
  rcases hleaf with ⟨hnone, _⟩ | ⟨lf, hsome, hwlf, hple, hdec⟩
  · subst hnone
    exact ⟨⟨it0, none, pos⟩, next_exhaust hn (by omega)⟩
  · subst hsome
    have hge : lf.byte_len ≤ pos := exhausted_pos hwlf hdec
    obtain ⟨g, rfl⟩ : ∃ g, cfuel = g + 1 + 1 := ⟨cfuel - 2, by omega⟩
    exact ⟨⟨it0, none, pos⟩,
      next_step_exhausted hge (next_exhaust hn (by omega))⟩

theorem streamInv_next_cons {it : CharIterState} {c : Nat} {cs : List Nat}
    {cfuel : Nat} (hinv : StreamInv it (c :: cs)) (hcf : 2 ≤ cfuel) :
    ∃ it', char_iterator.next cfuel it = some (some c, it') ∧
      StreamInv it' cs := by
  obtain ⟨ls, css, csr, hrl, hcss, hwf, hcs, hleaf⟩ := hinv
  obtain ⟨li, lfo, pos⟩ := it
  dsimp only at hrl hleaf
  cases hcsrx : csr with
  | cons c0 csr' =>
    subst hcsrx
    rcases hleaf with ⟨_, habs⟩ | ⟨lf, hsome, hwlf, hple, hdec⟩
    · exact absurd habs (by simp)
    · subst hsome
      rw [List.cons_append] at hcs
      have hc0 : c = c0 := (List.cons.inj hcs).1
      have hcs' : cs = csr' ++ css.flatten := (List.cons.inj hcs).2
      subst hc0
      obtain ⟨w, hw0, hwle, hnext, hd⟩ :=
        @next_in_leaf li lf pos _ _ cfuel hwlf hdec (by omega)
      refine ⟨⟨li, some lf, pos + w⟩, hnext,
        ls, css, csr', hrl, hcss, hwf, hcs',
        Or.inr ⟨lf, rfl, hwlf, hwle, hd⟩⟩
  | nil =>
    subst hcsrx
    rw [List.nil_append] at hcs
    cases hcss with
    | nil =>
      rw [List.flatten_nil] at hcs
      simp at hcs
    | @cons lf0 cs0 ls' css' h1 h2 =>
      have hwf0 : wfLeaf lf0 = true := hwf lf0 (by simp)
      obtain ⟨rest, hcs0, hcsrest⟩ :
          ∃ rest, cs0 = c :: rest ∧ cs = rest ++ css'.flatten := by
        cases cs0 with
        | nil =>
          obtain ⟨csx, hdx, hnex⟩ := wfLeaf_decode hwf0
          rw [h1] at hdx
          exact absurd (Option.some.inj hdx).symm hnex
        | cons c0 rest =>
          rw [List.flatten_cons, List.cons_append] at hcs
          have h3 := List.cons.inj hcs
          exact ⟨rest, by rw [h3.1], h3.2⟩
      rw [List.length_cons] at hrl
      obtain ⟨li', hn, hrl'⟩ := runLeaves_inv_cons hrl
      have hwtail : ∀ x ∈ ls', wfLeaf x = true :=
        fun x hx => hwf x (by simp [hx])
      rcases hleaf with ⟨hnone, _⟩ | ⟨lf, hsome, hwlf, hple, hdec⟩
      · subst hnone
        obtain ⟨w, hw0, hwle, hnext, hd⟩ :=
          @next_pull li li' lf0 pos _ _ cfuel hn hwf0
            (by rw [← hcs0]; exact h1) (by omega)
        exact ⟨⟨li', some lf0, w⟩, hnext,
          ls', css', rest, hrl', h2, hwtail, hcsrest,
          Or.inr ⟨lf0, rfl, hwf0, hwle, hd⟩⟩
      · subst hsome
        have hge : lf.byte_len ≤ pos := exhausted_pos hwlf hdec
        obtain ⟨g, rfl⟩ : ∃ g, cfuel = g + 1 + 1 := ⟨cfuel - 2, by omega⟩
        obtain ⟨w, hw0, hwle, hnext, hd⟩ :=
          @next_pull li li' lf0 pos _ _ (g + 1) hn hwf0
            (by rw [← hcs0]; exact h1) (show 1 ≤ g + 1 by omega)
        exact ⟨⟨li', some lf0, w⟩, next_step_exhausted hge hnext,
          ls', css', rest, hrl', h2, hwtail, hcsrest,
          Or.inr ⟨lf0, rfl, hwf0, hwle, hd⟩⟩

theorem cmp_loop_stop {fuel cfuel : Nat} {ita itb : CharIterState}
    {r : Int} (hr : r ≠ 0) (hf : 1 ≤ fuel) :
    node.cmp_loop fuel cfuel ita itb r = some r := by
  obtain ⟨f, rfl⟩ : ∃ f, fuel = f + 1 := ⟨fuel - 1, by omega⟩
  unfold node.cmp_loop
  rw [if_neg hr]

theorem cmp_loop_lex : ∀ (ca cb : List Nat) (fuel cfuel : Nat)
    (ita itb : CharIterState), StreamInv ita ca → StreamInv itb cb →
    2 ≤ cfuel → min ca.length cb.length + 2 ≤ fuel →
    node.cmp_loop fuel cfuel ita itb 0 = some (lexCompare ca cb) := by
  intro ca
  induction ca with
  | nil =>
    intro cb fuel cfuel ita itb hia hib hcf hfe
    obtain ⟨f, rfl⟩ : ∃ f, fuel = f + 1 := ⟨fuel - 1, by omega⟩
    obtain ⟨ita', hna⟩ := streamInv_next_nil hia hcf
    unfold node.cmp_loop
    rw [if_pos rfl, hna]
    cases cb with
    | nil =>
      obtain ⟨itb', hnb⟩ := streamInv_next_nil hib hcf
      rw [hnb]
      rfl
    | cons b cb' =>
      obtain ⟨itb', hnb, hib'⟩ := streamInv_next_cons hib hcf
      rw [hnb]
      dsimp only
      rw [cmp_loop_stop (by decide) (by omega)]
      rfl
  | cons a ca' iha =>
    intro cb fuel cfuel ita itb hia hib hcf hfe
    obtain ⟨f, rfl⟩ : ∃ f, fuel = f + 1 := ⟨fuel - 1, by omega⟩
    obtain ⟨ita', hna, hia'⟩ := streamInv_next_cons hia hcf
    unfold node.cmp_loop
    rw [if_pos rfl, hna]
    cases cb with
    | nil =>
      obtain ⟨itb', hnb⟩ := streamInv_next_nil hib hcf
      rw [hnb]
      dsimp only
      rw [cmp_loop_stop (by decide) (by omega)]
      rfl
    | cons b cb' =>
      obtain ⟨itb', hnb, hib'⟩ := streamInv_next_cons hib hcf
      rw [hnb]
      dsimp only
      by_cases hab : char_cmp a b = 0
      · rw [hab]
        rw [iha cb' f cfuel ita' itb' hia' hib' hcf (by
          simp only [List.length_cons] at hfe
          omega)]
        rw [show lexCompare (a :: ca') (b :: cb') = lexCompare ca' cb' from
          by rw [show lexCompare (a :: ca') (b :: cb') =
            (if char_cmp a b = 0 then lexCompare ca' cb' else char_cmp a b)
            from rfl, if_pos hab]]
      · rw [cmp_loop_stop hab (by omega)]
        rw [show lexCompare (a :: ca') (b :: cb') = char_cmp a b from
          by rw [show lexCompare (a :: ca') (b :: cb') =
            (if char_cmp a b = 0 then lexCompare ca' cb' else char_cmp a b)
            from rfl, if_neg hab]]

theorem lexCompare_eq_zero_iff : ∀ (ca cb : List Nat),
    lexCompare ca cb = 0 ↔ ca = cb := by
  intro ca
  induction ca with
  | nil =>
    intro cb
    cases cb with
    | nil => simp [lexCompare]
    | cons b cb' =>
      rw [show lexCompare [] (b :: cb') = -1 from rfl]
      constructor
      · intro h
        exact absurd h (by decide)
      · intro h
        exact absurd h (by simp)
  | cons a ca' iha =>
    intro cb
    cases cb with
    | nil =>
      rw [show lexCompare (a :: ca') [] = 1 from rfl]
      constructor
      · intro h
        exact absurd h (by decide)
      · intro h
        exact absurd h (by simp)
    | cons b cb' =>
      rw [show lexCompare (a :: ca') (b :: cb') =
        (if char_cmp a b = 0 then lexCompare ca' cb' else char_cmp a b)
        from rfl]
      by_cases hab : char_cmp a b = 0
      · have hab' : a = b := by
          unfold char_cmp at hab
          by_cases h1 : a < b
          · rw [if_pos h1] at hab
            exact absurd hab (by decide)
          · rw [if_neg h1] at hab
            by_cases h2 : a = b
            · exact h2
            · rw [if_neg h2] at hab
              exact absurd hab (by decide)
        subst hab'
        rw [if_pos hab, iha cb']
        constructor
        · intro h
          rw [h]
        · intro h
          exact (List.cons.inj h).2
      · rw [if_neg hab]
        constructor
        · intro h
          exact absurd h hab
        · intro h
          exfalso
          apply hab
          rw [(List.cons.inj h).1]
          unfold char_cmp
          rw [if_neg (by omega), if_pos rfl]

theorem wfNode_wfHeight : ∀ n : Node, wfNode n = true →
    wfHeight n = true := by
  intro n
  induction n with
  | leaf x => intro _; rfl
  | concat l r cl bl h ihl ihr =>
    intro hwf
    simp only [wfNode, Bool.and_eq_true, beq_iff_eq] at hwf
    simp only [wfHeight, Bool.and_eq_true, beq_iff_eq]
    exact ⟨⟨ihl hwf.1.1.1.1, ihr hwf.1.1.1.2⟩, hwf.2⟩

theorem wfNode_leaves : ∀ n : Node, wfNode n = true →
    ∀ lf ∈ leavesOf n, wfLeaf lf = true := by
  intro n
  induction n with
  | leaf x =>
    intro hwf lf hlf
    simp only [leavesOf, List.mem_singleton] at hlf
    subst hlf
    exact hwf
  | concat l r cl bl h ihl ihr =>
    intro hwf lf hlf
    simp only [wfNode, Bool.and_eq_true] at hwf
    simp only [leavesOf, List.mem_append] at hlf
    rcases hlf with h1 | h1
    · exact ihl hwf.1.1.1.1 lf h1
    · exact ihr hwf.1.1.1.2 lf h1

theorem leavesOf_ne_nil : ∀ n : Node, leavesOf n ≠ [] := by
  intro n
  induction n with
  | leaf x => simp [leavesOf]
  | concat l r cl bl h ihl ihr =>
    simp only [leavesOf]
    intro hx
    exact ihl (List.append_eq_nil.mp hx).1

theorem nodeBytes_eq_leaves : ∀ n : Node,
    nodeBytes n = ((leavesOf n).map leafBytes).flatten := by
  intro n
  induction n with
  | leaf x => simp [nodeBytes, leavesOf, leafBytes]
  | concat l r cl bl h ihl ihr =>
    simp only [nodeBytes, leavesOf, List.map_append, List.flatten_append]
    rw [ihl, ihr]

theorem decode_flatten : ∀ {ls : List Leaf} {css : List (List Nat)},
    List.Forall₂ (fun lf c => str.decode_str (leafBytes lf) = some c)
      ls css →
    str.decode_str ((ls.map leafBytes).flatten) = some css.flatten := by
  intro ls css h
  induction h with
  | nil => rfl
  | @cons lf cs0 ls' css' h1 h2 ih =>
    simp only [List.map_cons, List.flatten_cons]
    exact decode_str_append h1 ih

theorem css_exists : ∀ (ls : List Leaf),
    (∀ lf ∈ ls, wfLeaf lf = true) →
    ∃ css, List.Forall₂
      (fun lf c => str.decode_str (leafBytes lf) = some c) ls css := by
  intro ls
  induction ls with
  | nil => intro _; exact ⟨[], List.Forall₂.nil⟩
  | cons lf ls' ih =>
    intro hwf
    obtain ⟨cs0, hd, _⟩ := wfLeaf_decode (hwf lf (by simp))
    obtain ⟨css', hcss'⟩ := ih (fun x hx => hwf x (by simp [hx]))
    exact ⟨cs0 :: css', List.Forall₂.cons hd hcss'⟩

theorem nodeChars_ne_nil {n : Node} {cs : List Nat}
    (hwf : wfNode n = true)
    (hdec : str.decode_str (nodeBytes n) = some cs) : cs ≠ [] := by
  intro hx
  subst hx
  have hb := decode_str_eq_nil hdec
  cases hlvs : leavesOf n with
  | nil => exact leavesOf_ne_nil n hlvs
  | cons lf0 ls' =>
    have hw0 : wfLeaf lf0 = true :=
      wfNode_leaves n hwf lf0 (by rw [hlvs]; simp)
    obtain ⟨_, hbl, _⟩ := wfLeaf_parts hw0
    have hlen := leafBytes_length hw0
    rw [nodeBytes_eq_leaves, hlvs] at hb
    simp only [List.map_cons, List.flatten_cons] at hb
    have h1 := (List.append_eq_nil.mp hb).1
    rw [h1] at hlen
    simp only [List.length_nil] at hlen
    omega

theorem stream_start {n : Node} (hwf : wfNode n = true) :
    ∃ cs, str.decode_str (nodeBytes n) = some cs ∧
      StreamInv (char_iterator.start n) cs := by
  obtain ⟨css, hcss⟩ := css_exists (leavesOf n) (wfNode_leaves n hwf)
  have hdec : str.decode_str (nodeBytes n) = some css.flatten := by
    rw [nodeBytes_eq_leaves]
    exact decode_flatten hcss
  refine ⟨css.flatten, hdec, leavesOf n, css, [], ?_, hcss,
    wfNode_leaves n hwf, by simp, Or.inl ⟨rfl, rfl⟩⟩
  exact runLeaves_start n _ (wfNode_wfHeight n hwf) (Nat.le_refl _)

/-!
Claim theorems.
-/

/-- Claim C1 (code bug). The claim says: for every rope `r` and all
`offset`, `len` with `len > 0` and `offset + len ≤ char_len(r)`, the
content of `sub_chars(r, offset, len)` is the char-indexed slice
`content(r)[offset .. offset+len)`. The code violates it: on the rope
"ab" ++ "cd" (char length 4) the valid request `offset = 1`, `len = 2`
aborts — the straddling case of `node::sub_chars` asks the left child
for `left_len` chars starting at `char_offset` (instead of
`left_len - char_offset`), which overruns the leaf "ab" and fails the
`assert end < l` of `str::count_bytes` — instead of producing "bc". -/
theorem C1_sub_chars_valid_range_aborts :
    (do
      let a ← rope.of_str [97, 98]
      let b ← rope.of_str [99, 100]
      some (rope.char_len (rope.append_rope a b))) = some 4 ∧
    (do
      let a ← rope.of_str [97, 98]
      let b ← rope.of_str [99, 100]
      some (rootBytes (rope.append_rope a b))) = some [97, 98, 99, 100] ∧
    (do
      let a ← rope.of_str [97, 98]
      let b ← rope.of_str [99, 100]
      rope.sub_chars (rope.append_rope a b) 1 2) = none := by
  refine ⟨by decide, by decide, by decide⟩

/-- Claim C2 (code bug). The claim says: the checked `of_substr` builds
a node whose `char_len` is the number of code points in
`[byte_offset, byte_offset + byte_len)`, with every leaf satisfying the
leaf invariant. The code passes `byte_len` to `str::count_chars` where
an end position is expected, so `of_substr("ab", 1, 1)` counts the code
points of `[1, 1)` and builds the leaf
`{byte_offset := 1, byte_len := 1, char_len := 0}` — its byte range
holds the one code point "b", but `char_len` is 0 and the leaf
invariant fails. -/
theorem C2_of_substr_char_len_wrong :
    rope.of_substr [97, 98] 1 1 =
      some (Root.content (Node.leaf ⟨1, 1, 0, [97, 98]⟩)) ∧
    str.decode_str (leafBytes ⟨1, 1, 0, [97, 98]⟩) = some [98] ∧
    wfLeaf ⟨1, 1, 0, [97, 98]⟩ = false := by
  refine ⟨by decide, by decide, by decide⟩

set_option maxRecDepth 100000 in
/-- Claim C3 (code bug). The claim says: for `height(r) ≥ 16`, `bal(r)`
has the same content as `r` (and no greater height). The code violates
the content half: `node::serialize_node` copies leaf bytes
`[byte_offset, byte_len)` instead of `[byte_offset, byte_offset +
byte_len)`, so when rebalancing flattens a concat containing a leaf
with a nonzero `byte_offset`, bytes are dropped and zero bytes pad the
result. On `balCorruptInput` (height 17, built through the public API)
`bal` returns a rope whose flattened bytes differ from the
original's. -/
theorem C3_bal_corrupts_content :
    balCorruptInput.map rope.height = some 17 ∧
    (balCorruptInput.bind (rope.bal 1000)).map rootBytes ≠
      balCorruptInput.map rootBytes ∧
    (balCorruptInput.map rootBytes).map (List.take 3) =
      some [65, 66, 97] ∧
    ((balCorruptInput.bind (rope.bal 1000)).map rootBytes).map
      (List.take 3) = some [65, 97, 97] := by
  refine ⟨by decide, by decide, by decide, by decide⟩

/-- Claim C7 (code bug). The claim says: `sub_chars(r, offset, 0)` is
the Empty rope for every rope and offset, and for `len > 0` the call
aborts whenever `offset + len > char_len(r)`, including on the Empty
rope. The first and last parts hold, but the rope-level wrapper only
checks `len > char_len(r)`: on the rope `of_substr("abcd", 0, 2)`
(content "ab", char length 2, over a longer shared buffer) the invalid
request `offset = 1`, `len = 2` does not abort — it returns a rope
whose content "bc" even leaks a byte beyond the rope's range. -/
theorem C7_sub_chars_invalid_range_no_abort :
    (∀ r off, rope.sub_chars r off 0 = some Root.empty) ∧
    (∀ off len, 0 < len → rope.sub_chars Root.empty off len = none) ∧
    (rope.of_substr [97, 98, 99, 100] 0 2).map rope.char_len = some 2 ∧
    ((rope.of_substr [97, 98, 99, 100] 0 2).bind
      (fun r => rope.sub_chars r 1 2)).map rootBytes = some [98, 99] := by
  refine ⟨fun r off => rfl, fun off len hl => ?_, by decide, by decide⟩
  simp only [rope.sub_chars, if_neg (Nat.pos_iff_ne_zero.mp hl)]

/-- Claim C10 (confirmed). `concat` applied to the empty list returns
the Empty rope rather than failing. -/
theorem C10_concat_nil : rope.concat [] = some Root.empty := rfl

/-- Claim C6 (confirmed). `append_rope(Empty, r) = r` and
`append_rope(l, Empty) = l`; for non-empty sides the result is the
Concat node whose `char_len` and `byte_len` are the sums of the
children's and whose `height` is one more than the max of theirs. -/
theorem C6_append_rope_spec :
    (∀ r : Root, rope.append_rope Root.empty r = r) ∧
    (∀ l : Root, rope.append_rope l Root.empty = l) ∧
    (∀ lc rc : Node,
      rope.append_rope (Root.content lc) (Root.content rc) =
        Root.content (Node.concat lc rc
          (node.char_len lc + node.char_len rc)
          (node.byte_len lc + node.byte_len rc)
          (1 + Nat.max (node.height lc) (node.height rc)))) := by
  refine ⟨fun r => rfl, fun l => ?_, fun lc rc => ?_⟩
  · cases l <;> rfl
  · simp only [rope.append_rope, node.concat2, Nat.add_comm]

/-- Claim C4 (confirmed). For every string `s` (a valid UTF-8 byte
sequence, witnessed by the derived decoder succeeding on it),
flattening `of_str s` yields `s` again; and `of_str` of the empty
string is the Empty rope, whose `char_len` and `byte_len` are 0. -/
theorem C4_of_str_round_trip (s cs : List Nat)
    (h : str.decode_str s = some cs) :
    (rope.of_str s).map rootBytes = some s ∧
    rope.of_str [] = some Root.empty ∧
    rope.char_len Root.empty = 0 ∧ rope.byte_len Root.empty = 0 :=
  ⟨of_str_bytes h, rfl, rfl, rfl⟩

/-- Witness for claim C4 at the concrete string "ab". -/
theorem C4_of_str_round_trip_witness :
    (rope.of_str [97, 98]).map rootBytes = some [97, 98] ∧
    rope.of_str [] = some Root.empty ∧
    rope.char_len Root.empty = 0 ∧ rope.byte_len Root.empty = 0 :=
  C4_of_str_round_trip [97, 98] [97, 98] (by decide)

/-- Claim C8 (confirmed). For every non-empty list of ropes `v`, the
pairwise tournament merge `rope::concat` succeeds, and the byte content
of the result is the left-to-right concatenation of the byte contents of
the elements of `v` — which is also the content of folding `append_rope`
sequentially over `v` from an empty accumulator. -/
theorem C8_concat_eq_fold (v : List Root) (hne : v ≠ []) :
    ∃ c, rope.concat v = some c ∧
      rootBytes c = rootsJoin v ∧
      rootBytes c = rootBytes (v.foldl rope.append_rope Root.empty) := by
  have hv : 0 < v.length := List.length_pos.mpr hne
  unfold rope.concat
  simp only
  rw [if_neg (by omega), vget_eq hv]
  simp only [Option.bind_eq_bind, Option.some_bind]
  have hcopy := concat_copy_spec v.length v
    (List.replicate v.length (v.get ⟨0, hv⟩)) 1
    (by rw [List.length_replicate]) ?_ (by omega)
  · rw [hcopy]
    simp only [Option.bind_eq_bind, Option.some_bind]
    obtain ⟨c, hc, hcb⟩ := concat_loop_spec v.length v.length v hv
      (Nat.le_refl _) (Nat.le_refl _)
    refine ⟨c, hc, ?_, ?_⟩
    · rw [hcb, List.take_length]
    · rw [hcb, List.take_length, rootBytes_foldl]
      rfl
  · cases v with
    | nil => simp at hv
    | cons a t =>
      simp

/-- Witness for C8 at a concrete two-element list of leaf ropes. -/
theorem C8_concat_eq_fold_witness :
    ([Root.content (Node.leaf ⟨0, 1, 1, [97]⟩),
      Root.content (Node.leaf ⟨0, 1, 1, [98]⟩)] : List Root) ≠ [] ∧
    ∃ c, rope.concat
        [Root.content (Node.leaf ⟨0, 1, 1, [97]⟩),
         Root.content (Node.leaf ⟨0, 1, 1, [98]⟩)] = some c ∧
      rootBytes c = rootsJoin
        [Root.content (Node.leaf ⟨0, 1, 1, [97]⟩),
         Root.content (Node.leaf ⟨0, 1, 1, [98]⟩)] ∧
      rootBytes c = rootBytes
        (([Root.content (Node.leaf ⟨0, 1, 1, [97]⟩),
           Root.content (Node.leaf ⟨0, 1, 1, [98]⟩)] : List Root).foldl
          rope.append_rope Root.empty) :=
  ⟨by decide, C8_concat_eq_fold _ (by decide)⟩

/-- Claim C9 (confirmed). For every node whose cached heights are
correct (which the data-structure invariant guarantees for every node
the module builds), the leaf iterator started with its stack of
`height(root) + 1` slots never accesses the stack out of bounds — in
the embedding every out-of-bounds read or write yields `none`, so a
`some` answer certifies in-bounds accesses throughout — and yields
exactly the node's leaves in left-to-right order, then reports
exhaustion, within any fuel of at least `leafCount n + 1` calls. -/
theorem C9_leaf_iterator_complete (n : Node) (fuel : Nat)
    (hwf : wfHeight n = true) (hfe : leafCount n + 1 ≤ fuel) :
    runLeaves fuel (leaf_iterator.start n) = some (leavesOf n) :=
  runLeaves_start n fuel hwf hfe

/-- Witness for C9 at a two-leaf concat of correct height 1, with fuel
3 = leaf count + 1. -/
theorem C9_leaf_iterator_complete_witness :
    wfHeight (Node.concat (Node.leaf ⟨0, 1, 1, [97]⟩)
      (Node.leaf ⟨0, 1, 1, [98]⟩) 2 2 1) = true ∧
    leafCount (Node.concat (Node.leaf ⟨0, 1, 1, [97]⟩)
      (Node.leaf ⟨0, 1, 1, [98]⟩) 2 2 1) + 1 ≤ 3 ∧
    runLeaves 3 (leaf_iterator.start (Node.concat
      (Node.leaf ⟨0, 1, 1, [97]⟩) (Node.leaf ⟨0, 1, 1, [98]⟩) 2 2 1)) =
      some (leavesOf (Node.concat (Node.leaf ⟨0, 1, 1, [97]⟩)
        (Node.leaf ⟨0, 1, 1, [98]⟩) 2 2 1)) :=
  ⟨by decide, by decide,
    C9_leaf_iterator_complete _ 3 (by decide) (by decide)⟩

/-- Claim C5 (confirmed, with `char_cmp` modelled from the spec since
`char::cmp` is not among the repository's files). For all well-formed
ropes whose contents decode to the code-point sequences `ca` and `cb`,
`cmp` (run with enough fuel: the loop yields one code point per
iteration plus one exhaustion check, and each char-iterator call crosses
at most one leaf boundary) returns exactly the spec-side lexicographic
comparison of `ca` and `cb` — first differing code point decides, the
shorter side is smaller, equal exhaustion is 0 — independent of the
ropes' tree shapes and backing buffers, and that comparison is 0 exactly
when the contents are equal. -/
theorem C5_cmp_lexicographic (a b : Root) (ca cb : List Nat)
    (fuel cfuel : Nat) (hwa : wfRoot a = true) (hwb : wfRoot b = true)
    (hca : rootChars a = some ca) (hcb : rootChars b = some cb)
    (hcf : 2 ≤ cfuel) (hfe : min ca.length cb.length + 2 ≤ fuel) :
    rope.cmp fuel cfuel a b = some (lexCompare ca cb) ∧
    (lexCompare ca cb = 0 ↔ ca = cb) := by
  refine ⟨?_, lexCompare_eq_zero_iff ca cb⟩
  cases a with
  | empty =>
    have hca0 : ca = [] := by
      have h := hca
      rw [show rootChars Root.empty = some [] from rfl] at h
      exact (Option.some.inj h).symm
    cases b with
    | empty =>
      have hcb0 : cb = [] := by
        have h := hcb
        rw [show rootChars Root.empty = some [] from rfl] at h
        exact (Option.some.inj h).symm
      subst hca0
      subst hcb0
      rfl
    | content bn =>
      have hbne : cb ≠ [] := nodeChars_ne_nil hwb hcb
      cases cb with
      | nil => exact absurd rfl hbne
      | cons b0 cb' =>
        subst hca0
        rfl
  | content an =>
    cases b with
    | empty =>
      have hane : ca ≠ [] := nodeChars_ne_nil hwa hca
      have hcb0 : cb = [] := by
        have h := hcb
        rw [show rootChars Root.empty = some [] from rfl] at h
        exact (Option.some.inj h).symm
      cases ca with
      | nil => exact absurd rfl hane
      | cons a0 ca' =>
        subst hcb0
        rfl
    | content bn =>
      obtain ⟨csa, hdeca, hsa⟩ := stream_start (n := an) hwa
      obtain ⟨csb, hdecb, hsb⟩ := stream_start (n := bn) hwb
      have hea : csa = ca := Option.some.inj (hdeca.symm.trans hca)
      have heb : csb = cb := Option.some.inj (hdecb.symm.trans hcb)
      subst hea
      subst heb
      show node.cmp fuel cfuel an bn = some (lexCompare csa csb)
      unfold node.cmp
      exact cmp_loop_lex csa csb fuel cfuel _ _ hsa hsb hcf hfe

/-- Witness for C5: two well-formed single-content ropes of different
tree shapes over different backing buffers (the first splits "ab"
across two leaves, each a one-byte window into a two-byte buffer with a
junk byte; the second is one leaf of "ac"), compared with fuel 4 and
char-iterator fuel 2. -/
theorem C5_cmp_lexicographic_witness :
    wfRoot (Root.content (Node.concat (Node.leaf ⟨0, 1, 1, [97, 120]⟩)
      (Node.leaf ⟨1, 1, 1, [120, 98]⟩) 2 2 1)) = true ∧
    wfRoot (Root.content (Node.leaf ⟨0, 2, 2, [97, 99]⟩)) = true ∧
    rootChars (Root.content (Node.concat (Node.leaf ⟨0, 1, 1, [97, 120]⟩)
      (Node.leaf ⟨1, 1, 1, [120, 98]⟩) 2 2 1)) = some [97, 98] ∧
    rootChars (Root.content (Node.leaf ⟨0, 2, 2, [97, 99]⟩)) =
      some [97, 99] ∧
    2 ≤ 2 ∧ min ([97, 98] : List Nat).length
      ([97, 99] : List Nat).length + 2 ≤ 4 ∧
    (rope.cmp 4 2 (Root.content (Node.concat (Node.leaf ⟨0, 1, 1, [97, 120]⟩)
        (Node.leaf ⟨1, 1, 1, [120, 98]⟩) 2 2 1))
      (Root.content (Node.leaf ⟨0, 2, 2, [97, 99]⟩)) =
      some (lexCompare [97, 98] [97, 99]) ∧
      (lexCompare [97, 98] [97, 99] = 0 ↔ ([97, 98] : List Nat) = [97, 99])) :=
  ⟨by decide, by decide, by decide, by decide, by decide, by decide,
    C5_cmp_lexicographic _ _ _ _ 4 2 (by decide) (by decide) (by decide)
      (by decide) (by decide) (by decide)⟩
